import Mathlib

/-!
Verification of the core of the `ringing` repository (Monument, a change-ringing
composition search engine) against its natural-language specification.

Each Rust function relevant to a claim is shallowly embedded as an executable
Lean definition, translated directly from the source.  Machine integers
(`usize`, `u16`) are modelled as `Nat`; `saturating_sub` is `Nat` subtraction;
Rust `panic!` / `assert!` sites become `Option`-valued functions returning
`none` on failure.  Parts of the repository that are referenced by the claims
but whose source files are not available (bellframe's `Row` and `Block`, the
layout types, the search's path arena and `CompPrefix::expand`) are
modelled from the specification, as marked in their doc comments.
-/

/-! ### `monument/lib/src/utils/mod.rs` and `monument/lib/src/composition.rs`

`div_rounding_up` (utils/mod.rs lines 57-60) and `num_leads_covered`
(composition.rs lines 312-319).  `num_leads_covered` starts with
`assert_ne!(length, PerPartLength::ZERO)`, which we model by returning `none`
for a zero length. -/

def div_rounding_up (lhs rhs : Nat) : Nat :=
  (lhs + rhs - 1) / rhs

def num_leads_covered (lead_len start_sub_lead_idx length : Nat) : Option Nat :=
  if length = 0 then none
  else
    let dist_to_end_of_first_lead := lead_len - start_sub_lead_idx
    let rows_after_end_of_first_lead := length - dist_to_end_of_first_lead
    some (div_rounding_up rows_after_end_of_first_lead lead_len + 1)

/-- Helper: `div_rounding_up a L` is the ceiling of `a / L`, characterised as
the least `q` with `a ≤ q * L`. -/
theorem div_rounding_up_is_ceil (a L : Nat) (hL : 1 ≤ L) :
    a ≤ div_rounding_up a L * L ∧ ∀ q, a ≤ q * L → div_rounding_up a L ≤ q := by
  constructor
  · rcases Nat.eq_zero_or_pos a with ha | ha
    · simp [ha]
    · have h1 : a + L - 1 < L * (div_rounding_up a L + 1) := by
        unfold div_rounding_up
        exact Nat.lt_mul_div_succ _ hL
      have h2 : L * (div_rounding_up a L + 1) = div_rounding_up a L * L + L := by ring
      rw [h2] at h1
      generalize div_rounding_up a L * L = Y at h1 ⊢
      omega
  · intro q hq
    unfold div_rounding_up
    have h1 : a + L - 1 ≤ q * L + (L - 1) := by omega
    have h2 : (a + L - 1) / L ≤ (q * L + (L - 1)) / L := Nat.div_le_div_right h1
    have h3 : (L - 1 + q * L) / L = (L - 1) / L + q := Nat.add_mul_div_right _ _ hL
    have h4 : (L - 1) / L = 0 := Nat.div_eq_of_lt (by omega)
    calc (a + L - 1) / L ≤ (q * L + (L - 1)) / L := h2
      _ = (L - 1 + q * L) / L := by ring_nf
      _ = q := by rw [h3, h4]; ring

/-- Claim C7: for every lead length `L ≥ 1`, start sub-lead index `k < L` and
length `len ≥ 1`, `num_leads_covered L k len` succeeds and returns
`1 + ceil(max(len - (L - k), 0) / L)` — stated via the defining property of the
ceiling: the returned value is `1 + q` where `q` is the least natural number
with `len - (L - k) ≤ q * L` (subtraction on `Nat` is saturating, which is
exactly `max(· , 0)`).  In particular `num_leads_covered L 0 L = 1`,
`num_leads_covered L k L = 2` for `0 < k < L`, and
`num_leads_covered L k (L - k) = 1` for `0 ≤ k < L`. -/
theorem num_leads_covered_spec (L k len : Nat) (hL : 1 ≤ L) (hk : k < L)
    (hlen : 1 ≤ len) :
    ∃ v, num_leads_covered L k len = some v ∧
      (len - (L - k) ≤ (v - 1) * L ∧ ∀ q, len - (L - k) ≤ q * L → v - 1 ≤ q) ∧
      (len = L → k = 0 → v = 1) ∧
      (len = L → 0 < k → v = 2) ∧
      (len = L - k → v = 1) := by
  have hlen0 : ¬(len = 0) := by omega
  refine ⟨div_rounding_up (len - (L - k)) L + 1, ?_, ?_, ?_, ?_, ?_⟩
  · simp [num_leads_covered, hlen0]
  · have h := div_rounding_up_is_ceil (len - (L - k)) L hL
    refine ⟨by simpa using h.1, fun q hq => by simpa using h.2 q hq⟩
  · intro hlenL hk0
    have h1 : len - (L - k) = 0 := by omega
    have h2 : (L - 1) / L = 0 := Nat.div_eq_of_lt (by omega)
    simp [h1, div_rounding_up, h2]
  · intro hlenL hk0
    have h1 : len - (L - k) = k := by omega
    have h2 : (k + L - 1) / L = 1 :=
      Nat.div_eq_of_lt_le (by omega) (by omega)
    simp [h1, div_rounding_up, h2]
  · intro hlenLk
    have h1 : len - (L - k) = 0 := by omega
    have h2 : (L - 1) / L = 0 := Nat.div_eq_of_lt (by omega)
    simp [h1, div_rounding_up, h2]

/-- Witness for `num_leads_covered_spec` at `L = 32`, `k = 2`, `len = 32`
(one of the repository's own unit-test vectors). -/
theorem num_leads_covered_spec_witness :
    (1 ≤ 32 ∧ 2 < 32 ∧ 1 ≤ 32) ∧
      ∃ v, num_leads_covered 32 2 32 = some v ∧
        (32 - (32 - 2) ≤ (v - 1) * 32 ∧ ∀ q, 32 - (32 - 2) ≤ q * 32 → v - 1 ≤ q) ∧
        (32 = 32 → 2 = 0 → v = 1) ∧
        (32 = 32 → 0 < 2 → v = 2) ∧
        (32 = 32 - 2 → v = 1) :=
  ⟨⟨by decide, by decide, by decide⟩,
    num_leads_covered_spec 32 2 32 (by decide) (by decide) (by decide)⟩

/-! ### `graph/src/graph.rs` — optimiser fixed-point loop (claim C2)

`Size` and its `PartialOrd` impl (graph.rs lines 195-239) are embedded
directly.  Rust's `partial_cmp` cannot keep its name here, so it is called
`Size.pcmp`.  `Graph::optimise_with_iter_limit` (lines 119-134) mutates a
graph in place by running a pass sequence; we embed it over an arbitrary
state type `G`, a pass list `passes : List (G → G)` (each `Pass::run`
becomes a function) and a measure `size : G → Size` standing for
`Size::from(&*self)`. -/

structure Size where
  num_nodes : Nat
  num_links : Nat
  num_starts : Nat
  num_ends : Nat
deriving DecidableEq, Repr

def Size.pcmp (s other : Size) : Option Ordering :=
  let cmp_nodes := compare s.num_nodes other.num_nodes
  let cmp_links := compare s.num_links other.num_links
  let cmp_starts := compare s.num_starts other.num_starts
  let cmp_ends := compare s.num_ends other.num_ends
  let all_comparisons := [cmp_nodes, cmp_links, cmp_starts, cmp_ends]
  let are_any_less := all_comparisons.any (fun cmp =>
    match cmp with | Ordering.lt => true | _ => false)
  let are_any_greater := all_comparisons.any (fun cmp =>
    match cmp with | Ordering.gt => true | _ => false)
  match are_any_less, are_any_greater with
  | true, false => some Ordering.lt
  | false, true => some Ordering.gt
  | false, false => some Ordering.eq
  | true, true => none

def run_passes {G : Type} (passes : List (G → G)) (g : G) : G :=
  passes.foldl (fun g p => p g) g

def optimise_loop {G : Type} (passes : List (G → G)) (size : G → Size) :
    Nat → G → Size → G
  | 0, g, _ => g
  | Nat.succ limit, g, last_size =>
    let g' := run_passes passes g
    let new_size := size g'
    match new_size.pcmp last_size with
    | some Ordering.eq => g'
    | some Ordering.gt => g'
    | _ => optimise_loop passes size limit g' new_size

def optimise_with_iter_limit {G : Type} (passes : List (G → G)) (size : G → Size)
    (limit : Nat) (g : G) : G :=
  optimise_loop passes size limit g (size g)

def optimise {G : Type} (passes : List (G → G)) (size : G → Size) (g : G) : G :=
  optimise_with_iter_limit passes size 20 g

/-- Helper: `optimise_loop` applies the pass sequence at most `limit` more
times on top of the iterations already performed. -/
theorem optimise_loop_iterates {G : Type} (passes : List (G → G)) (size : G → Size) :
    ∀ (limit : Nat) (g : G) (last_size : Size),
      ∃ k, k ≤ limit ∧
        optimise_loop passes size limit g last_size = (run_passes passes)^[k] g := by
  intro limit
  induction limit with
  | zero => exact fun g ls => ⟨0, le_rfl, rfl⟩
  | succ limit ih =>
    intro g ls
    show ∃ k, k ≤ limit + 1 ∧
      (match (size (run_passes passes g)).pcmp ls with
        | some Ordering.eq => run_passes passes g
        | some Ordering.gt => run_passes passes g
        | _ => optimise_loop passes size limit (run_passes passes g)
            (size (run_passes passes g))) = (run_passes passes)^[k] g
    rcases h : (size (run_passes passes g)).pcmp ls with _ | o
    · obtain ⟨k, hk, heq⟩ := ih (run_passes passes g) (size (run_passes passes g))
      exact ⟨k + 1, by omega, by
        simpa [Function.iterate_succ_apply] using heq⟩
    · rcases o with _ | _ | _
      · obtain ⟨k, hk, heq⟩ := ih (run_passes passes g) (size (run_passes passes g))
        exact ⟨k + 1, by omega, by
          simpa [Function.iterate_succ_apply] using heq⟩
      · exact ⟨1, by omega, by simp⟩
      · exact ⟨1, by omega, by simp⟩

/-- Helper: `matches!(cmp, Ordering::Less)` as a decidable proposition. -/
theorem cmp_match_lt (x y : Nat) :
    (match compare x y with | Ordering.lt => true | _ => false) = decide (x < y) := by
  rcases h : compare x y with _ | _ | _
  · rw [Nat.compare_eq_lt] at h
    simp [h]
  · rw [Nat.compare_eq_eq] at h
    simp [h]
  · rw [Nat.compare_eq_gt] at h
    simp [show ¬(x < y) from by omega]

/-- Helper: `matches!(cmp, Ordering::Greater)` as a decidable proposition. -/
theorem cmp_match_gt (x y : Nat) :
    (match compare x y with | Ordering.gt => true | _ => false) = decide (y < x) := by
  rcases h : compare x y with _ | _ | _
  · rw [Nat.compare_eq_lt] at h
    simp [show ¬(y < x) from by omega]
  · rw [Nat.compare_eq_eq] at h
    simp [h]
  · rw [Nat.compare_eq_gt] at h
    simp [h]

/-- Helper: full characterisation of `Size.pcmp` in terms of componentwise
comparisons. -/
theorem pcmp_characterisation (a b : Size) :
    (a.pcmp b = some Ordering.lt ↔
      ((a.num_nodes < b.num_nodes ∨ a.num_links < b.num_links ∨
        a.num_starts < b.num_starts ∨ a.num_ends < b.num_ends) ∧
       ¬(b.num_nodes < a.num_nodes ∨ b.num_links < a.num_links ∨
        b.num_starts < a.num_starts ∨ b.num_ends < a.num_ends))) ∧
    (a.pcmp b = some Ordering.gt ↔
      ((b.num_nodes < a.num_nodes ∨ b.num_links < a.num_links ∨
        b.num_starts < a.num_starts ∨ b.num_ends < a.num_ends) ∧
       ¬(a.num_nodes < b.num_nodes ∨ a.num_links < b.num_links ∨
        a.num_starts < b.num_starts ∨ a.num_ends < b.num_ends))) ∧
    (a.pcmp b = some Ordering.eq ↔
      (a.num_nodes = b.num_nodes ∧ a.num_links = b.num_links ∧
       a.num_starts = b.num_starts ∧ a.num_ends = b.num_ends)) ∧
    (a.pcmp b = none ↔
      ((a.num_nodes < b.num_nodes ∨ a.num_links < b.num_links ∨
        a.num_starts < b.num_starts ∨ a.num_ends < b.num_ends) ∧
       (b.num_nodes < a.num_nodes ∨ b.num_links < a.num_links ∨
        b.num_starts < a.num_starts ∨ b.num_ends < a.num_ends))) := by
  have e : a.pcmp b =
      (match decide (a.num_nodes < b.num_nodes ∨ a.num_links < b.num_links ∨
          a.num_starts < b.num_starts ∨ a.num_ends < b.num_ends),
        decide (b.num_nodes < a.num_nodes ∨ b.num_links < a.num_links ∨
          b.num_starts < a.num_starts ∨ b.num_ends < a.num_ends) with
      | true, false => some Ordering.lt
      | false, true => some Ordering.gt
      | false, false => some Ordering.eq
      | true, true => none) := by
    simp only [Size.pcmp, List.any_cons, List.any_nil, cmp_match_lt, cmp_match_gt,
      Bool.or_false, Bool.decide_or]
  rw [e]
  by_cases hL : (a.num_nodes < b.num_nodes ∨ a.num_links < b.num_links ∨
      a.num_starts < b.num_starts ∨ a.num_ends < b.num_ends) <;>
    by_cases hG : (b.num_nodes < a.num_nodes ∨ b.num_links < a.num_links ∨
      b.num_starts < a.num_starts ∨ b.num_ends < a.num_ends) <;>
      simp [hL, hG] <;> omega

/-- Claim C2: `Graph::optimise_with_iter_limit` applies the full pass sequence
at most `limit` times (`Graph::optimise` uses `limit = 20`); after each
application it compares the new `Size` with the previous one, returning
immediately when the new size is equal or greater, and continuing when it is
strictly smaller or incomparable; and `Size.pcmp` (Rust's
`Size::partial_cmp`) returns `Less` iff some component decreased and none
increased, `Greater` iff some increased and none decreased, `Equal` iff all
components are equal, and `None` iff some decreased while another
increased. -/
theorem optimise_spec {G : Type} (passes : List (G → G)) (size : G → Size) :
    (∀ (limit : Nat) (g : G), ∃ k, k ≤ limit ∧
      optimise_with_iter_limit passes size limit g = (run_passes passes)^[k] g) ∧
    (∀ g : G, optimise passes size g = optimise_with_iter_limit passes size 20 g) ∧
    (∀ (limit : Nat) (g : G),
      ((size (run_passes passes g)).pcmp (size g) = some Ordering.eq ∨
       (size (run_passes passes g)).pcmp (size g) = some Ordering.gt) →
      optimise_with_iter_limit passes size (limit + 1) g = run_passes passes g) ∧
    (∀ (limit : Nat) (g : G),
      ((size (run_passes passes g)).pcmp (size g) = some Ordering.lt ∨
       (size (run_passes passes g)).pcmp (size g) = none) →
      optimise_with_iter_limit passes size (limit + 1) g =
        optimise_loop passes size limit (run_passes passes g)
          (size (run_passes passes g))) ∧
    (∀ a b : Size,
      (a.pcmp b = some Ordering.lt ↔
        ((a.num_nodes < b.num_nodes ∨ a.num_links < b.num_links ∨
          a.num_starts < b.num_starts ∨ a.num_ends < b.num_ends) ∧
         ¬(b.num_nodes < a.num_nodes ∨ b.num_links < a.num_links ∨
          b.num_starts < a.num_starts ∨ b.num_ends < a.num_ends))) ∧
      (a.pcmp b = some Ordering.gt ↔
        ((b.num_nodes < a.num_nodes ∨ b.num_links < a.num_links ∨
          b.num_starts < a.num_starts ∨ b.num_ends < a.num_ends) ∧
         ¬(a.num_nodes < b.num_nodes ∨ a.num_links < b.num_links ∨
          a.num_starts < b.num_starts ∨ a.num_ends < b.num_ends))) ∧
      (a.pcmp b = some Ordering.eq ↔
        (a.num_nodes = b.num_nodes ∧ a.num_links = b.num_links ∧
         a.num_starts = b.num_starts ∧ a.num_ends = b.num_ends)) ∧
      (a.pcmp b = none ↔
        ((a.num_nodes < b.num_nodes ∨ a.num_links < b.num_links ∨
          a.num_starts < b.num_starts ∨ a.num_ends < b.num_ends) ∧
         (b.num_nodes < a.num_nodes ∨ b.num_links < a.num_links ∨
          b.num_starts < a.num_starts ∨ b.num_ends < a.num_ends)))) := by
  refine ⟨?_, fun g => rfl, ?_, ?_, fun a b => pcmp_characterisation a b⟩
  · exact fun limit g => optimise_loop_iterates passes size limit g (size g)
  · intro limit g h
    show (match (size (run_passes passes g)).pcmp (size g) with
      | some Ordering.eq => run_passes passes g
      | some Ordering.gt => run_passes passes g
      | _ => optimise_loop passes size limit (run_passes passes g)
          (size (run_passes passes g))) = run_passes passes g
    rcases h with h | h <;> rw [h]
  · intro limit g h
    show (match (size (run_passes passes g)).pcmp (size g) with
      | some Ordering.eq => run_passes passes g
      | some Ordering.gt => run_passes passes g
      | _ => optimise_loop passes size limit (run_passes passes g)
          (size (run_passes passes g))) = _
    rcases h with h | h <;> rw [h]

/-- Witness for `optimise_spec`: instantiated with the identity pass on `Nat`
and a constant size, the optimiser returns after one application of the pass
list. -/
theorem optimise_spec_witness :
    optimise_with_iter_limit (G := Nat) [fun g => g + 1] (fun _ => ⟨1, 1, 1, 1⟩) 5 0 =
      run_passes [fun g => g + 1] 0 :=
  (optimise_spec (G := Nat) [fun g => g + 1] (fun _ => ⟨1, 1, 1, 1⟩)).2.2.1 4 0
    (Or.inl (by decide))

/-! ### `bellframe/src/mask.rs` — masks (claims C8, C9)

Bells are indices (`Bell::index()`), so `Bell := Nat`.  `bellframe`'s
`row.rs` is not among the provided sources, so rows are modelled from the
spec: a `Row` of stage `n` is an ordered permutation of the bells
`0, …, n-1`, represented as a `List Nat` satisfying `IsRow`, and row
composition `a * b` applies `b` to the positions of `a`
(`(a * b)[i] = a[b[i]]`). -/

abbrev Bell := Nat

/-- Modelled from the spec: validity predicate of bellframe's `Row` type
(`row.rs` is not in the provided sources).  Every bell below the stage
appears exactly once. -/
def IsRow (n : Nat) (r : List Bell) : Prop :=
  r.length = n ∧ r.Nodup ∧ ∀ b ∈ r, b < n

/-- Modelled from the spec: row composition, `(a * b)[i] = a[b[i]]`
("apply `b` to the positions of `a`"). -/
def row_mul (a b : List Bell) : List Bell :=
  b.map (fun i => a.getD i 0)

structure Mask where
  bells : List (Option Bell)
deriving DecidableEq, Repr

def Mask.stage (m : Mask) : Nat :=
  m.bells.length

/-- Embedding of the `zip_eq` loop inside `Mask::matches` (mask.rs lines
186-195): walk both lists in lockstep, requiring every specified bell to
agree with the row. -/
def matches_aux : List (Option Bell) → List Bell → Bool
  | [], [] => true
  | some expected_bell :: ms, real_bell :: rs =>
    if expected_bell ≠ real_bell then false else matches_aux ms rs
  | none :: ms, _ :: rs => matches_aux ms rs
  | _, _ => false

/-- Embedding of `Mask::matches` (mask.rs lines 180-196): rows of a
different stage never match; otherwise compare positionwise. -/
def Mask.matches (m : Mask) (row : List Bell) : Bool :=
  if m.stage ≠ row.length then false
  else matches_aux m.bells row

/-- Embedding of the `zip_eq` loop inside `Mask::is_subset_of` (mask.rs
lines 262-275). -/
def is_subset_of_aux : List (Option Bell) → List (Option Bell) → Bool
  | [], [] => true
  | b1 :: bs1, b2 :: bs2 =>
    match b1, b2 with
    | none, some _ => false
    | some b_self, some b_other =>
      if b_self ≠ b_other then false else is_subset_of_aux bs1 bs2
    | _, none => is_subset_of_aux bs1 bs2
  | _, _ => false

/-- Embedding of `Mask::is_subset_of` (mask.rs lines 255-279). -/
def Mask.is_subset_of (m other : Mask) : Bool :=
  if m.stage ≠ other.stage then false
  else is_subset_of_aux m.bells other.bells

/-- Embedding of `Mul<&Row> for &Mask` (mask.rs lines 412-428):
`bells = rhs.bell_iter().map(|b| self.bells[b.index()])`.  The
`assert_eq!(self.stage(), rhs.stage())` becomes an `Option` guard. -/
def mask_mul_row (m : Mask) (rhs : List Bell) : Option Mask :=
  if m.stage = rhs.length then
    some ⟨rhs.map (fun b => m.bells.getD b none)⟩
  else none

/-- Embedding of `Mul<&Mask> for &Row` (mask.rs lines 460-480):
`bells = rhs.bells.map(|maybe_bell| maybe_bell.map(|b| self[b.index()]))`,
with the stage assertion as an `Option` guard. -/
def row_mul_mask (r : List Bell) (rhs : Mask) : Option Mask :=
  if r.length = rhs.stage then
    some ⟨rhs.bells.map (fun maybe_bell => maybe_bell.map (fun b => r.getD b 0))⟩
  else none

/-- Helper: out-of-range `getD` returns the default. -/
theorem list_getD_of_not_lt {α : Type} (l : List α) (d : α) (i : Nat)
    (h : ¬ i < l.length) : l.getD i d = d := by
  unfold List.getD
  rw [List.get?_eq_none.mpr (by omega)]
  rfl

/-- Helper: positionwise characterisation of `matches_aux`. -/
theorem matches_aux_iff : ∀ (ms : List (Option Bell)) (rs : List Bell),
    ms.length = rs.length →
    (matches_aux ms rs = true ↔ ∀ i b, ms.getD i none = some b → rs.getD i 0 = b) := by
  intro ms
  induction ms with
  | nil =>
    intro rs h
    cases rs with
    | nil =>
      simp only [matches_aux, true_iff]
      intro i b hb
      simp [List.getD] at hb
    | cons r rs => simp at h
  | cons mb ms ih =>
    intro rs h
    cases rs with
    | nil => simp at h
    | cons rb rs =>
      have hlen : ms.length = rs.length := by simpa using h
      cases mb with
      | none =>
        show matches_aux ms rs = true ↔ _
        rw [ih rs hlen]
        constructor
        · intro h2 i b hb
          cases i with
          | zero => simp at hb
          | succ i =>
            rw [List.getD_cons_succ] at hb ⊢
            exact h2 i b hb
        · intro h2 i b hb
          have h3 := h2 (i + 1) b (by rwa [List.getD_cons_succ])
          rwa [List.getD_cons_succ] at h3
      | some eb =>
        by_cases heb : eb = rb
        · subst heb
          show (if eb ≠ eb then false else matches_aux ms rs) = true ↔ _
          rw [if_neg (by simp), ih rs hlen]
          constructor
          · intro h2 i b hb
            cases i with
            | zero =>
              simp only [List.getD_cons_zero, Option.some.injEq] at hb
              simpa using hb
            | succ i =>
              rw [List.getD_cons_succ] at hb ⊢
              exact h2 i b hb
          · intro h2 i b hb
            have h3 := h2 (i + 1) b (by rwa [List.getD_cons_succ])
            rwa [List.getD_cons_succ] at h3
        · show (if eb ≠ rb then false else matches_aux ms rs) = true ↔ _
          rw [if_pos heb]
          simp only [Bool.false_eq_true, false_iff]
          intro h2
          exact heb ((h2 0 eb rfl).symm)

/-- Helper: `Mask.matches` succeeds iff the stages agree and every specified
bell of the mask appears at its position in the row. -/
theorem mask_matches_iff (m : Mask) (r : List Bell) :
    m.matches r = true ↔
      (m.stage = r.length ∧
        ∀ i b, m.bells.getD i none = some b → r.getD i 0 = b) := by
  unfold Mask.matches
  by_cases h : m.stage = r.length
  · rw [if_neg (by simpa using h)]
    rw [matches_aux_iff m.bells r h]
    simp [h]
  · rw [if_pos (by simpa using h)]
    simp [h]

/-- Helper: positionwise characterisation of `is_subset_of_aux`. -/
theorem is_subset_of_aux_iff : ∀ (bs1 bs2 : List (Option Bell)),
    bs1.length = bs2.length →
    (is_subset_of_aux bs1 bs2 = true ↔
      ∀ i b, bs2.getD i none = some b → bs1.getD i none = some b) := by
  intro bs1
  induction bs1 with
  | nil =>
    intro bs2 h
    cases bs2 with
    | nil =>
      simp only [is_subset_of_aux, true_iff]
      intro i b hb
      simp [List.getD] at hb
    | cons b2 bs2 => simp at h
  | cons b1 bs1 ih =>
    intro bs2 h
    cases bs2 with
    | nil => simp at h
    | cons b2 bs2 =>
      have hlen : bs1.length = bs2.length := by simpa using h
      cases b1 with
      | none =>
        cases b2 with
        | none =>
          show is_subset_of_aux bs1 bs2 = true ↔ _
          rw [ih bs2 hlen]
          constructor
          · intro h2 i b hb
            cases i with
            | zero => simp at hb
            | succ i =>
              rw [List.getD_cons_succ] at hb ⊢
              exact h2 i b hb
          · intro h2 i b hb
            have h3 := h2 (i + 1) b (by rwa [List.getD_cons_succ])
            rwa [List.getD_cons_succ] at h3
        | some o =>
          show false = true ↔ _
          simp only [Bool.false_eq_true, false_iff]
          intro h2
          have h3 := h2 0 o rfl
          simp at h3
      | some s =>
        cases b2 with
        | none =>
          show is_subset_of_aux bs1 bs2 = true ↔ _
          rw [ih bs2 hlen]
          constructor
          · intro h2 i b hb
            cases i with
            | zero => simp at hb
            | succ i =>
              rw [List.getD_cons_succ] at hb ⊢
              exact h2 i b hb
          · intro h2 i b hb
            have h3 := h2 (i + 1) b (by rwa [List.getD_cons_succ])
            rwa [List.getD_cons_succ] at h3
        | some o =>
          by_cases hso : s = o
          · subst hso
            show (if s ≠ s then false else is_subset_of_aux bs1 bs2) = true ↔ _
            rw [if_neg (by simp), ih bs2 hlen]
            constructor
            · intro h2 i b hb
              cases i with
              | zero => simpa using hb
              | succ i =>
                rw [List.getD_cons_succ] at hb ⊢
                exact h2 i b hb
            · intro h2 i b hb
              have h3 := h2 (i + 1) b (by rwa [List.getD_cons_succ])
              rwa [List.getD_cons_succ] at h3
          · show (if s ≠ o then false else is_subset_of_aux bs1 bs2) = true ↔ _
            rw [if_pos hso]
            simp only [Bool.false_eq_true, false_iff]
            intro h2
            have h3 := h2 0 o rfl
            simp only [List.getD_cons_zero, Option.some.injEq] at h3
            exact hso h3

/-- Counterexample to claim C9: the masks `1x` and `x2` (stage 2) each
specify every bell at most once, every stage-2 `Row` matched by `1x` (only
`12`) is also matched by `x2`, yet `is_subset_of` returns `false`.  So
`is_subset_of` is *not* equivalent to semantic row-set inclusion. -/
theorem is_subset_of_counterexample :
    (([some 0, none] : List (Option Bell)).filterMap id).Nodup ∧
    (([none, some 1] : List (Option Bell)).filterMap id).Nodup ∧
    Mask.is_subset_of ⟨[some 0, none]⟩ ⟨[none, some 1]⟩ = false ∧
    ∀ r, IsRow 2 r → Mask.matches ⟨[some 0, none]⟩ r = true →
      Mask.matches ⟨[none, some 1]⟩ r = true := by
  refine ⟨by decide, by decide, by decide, ?_⟩
  rintro r ⟨hlen, hnd, hbound⟩ hm
  match r, hlen with
  | [x, y], _ =>
    have hx : x = 0 := by
      have := (mask_matches_iff _ _).mp hm
      have h0 := this.2 0 0 rfl
      simpa using h0
    have hy : y = 1 := by
      have hxy : x ≠ y := by
        intro h
        subst h
        simp at hnd
      have hyb : y < 2 := hbound y (by simp)
      have harith : ∀ a b : Nat, a ≠ b → b < 2 → a = 0 → b = 1 := by omega
      exact harith x y hxy hyb hx
    subst hx hy
    decide

/-- Claim C9 (amended): `a.is_subset_of(b)` returns `false` for masks of
different stages; it returns `true` iff the stages agree and every position
specified by `b` is specified with the same bell by `a`; and whenever it
returns `true`, every `Row` matched by `a` is also matched by `b`.  (The
converse of the last implication is false, see
the stage-2 masks `1x` and `x2`.) -/
theorem is_subset_of_spec (a b : Mask) :
    (a.stage ≠ b.stage → a.is_subset_of b = false) ∧
    (a.is_subset_of b = true ↔
      (a.stage = b.stage ∧
        ∀ i bb, b.bells.getD i none = some bb → a.bells.getD i none = some bb)) ∧
    (a.is_subset_of b = true → ∀ r, a.matches r = true → b.matches r = true) := by
  have hchar : a.is_subset_of b = true ↔
      (a.stage = b.stage ∧
        ∀ i bb, b.bells.getD i none = some bb → a.bells.getD i none = some bb) := by
    unfold Mask.is_subset_of
    by_cases h : a.stage = b.stage
    · rw [if_neg (by simpa using h)]
      rw [is_subset_of_aux_iff a.bells b.bells h]
      simp [h]
    · rw [if_pos (by simpa using h)]
      simp [h]
  refine ⟨?_, hchar, ?_⟩
  · intro hne
    unfold Mask.is_subset_of
    rw [if_pos (by simpa using hne)]
  · intro hsub r hmatch
    obtain ⟨hstage, hpos⟩ := hchar.mp hsub
    obtain ⟨hlen, hbells⟩ := (mask_matches_iff a r).mp hmatch
    rw [mask_matches_iff]
    exact ⟨by omega, fun i bb hb => hbells i bb (hpos i bb hb)⟩

/-- Witness for `is_subset_of_spec`: `xx3456` is a subset of `xxxx56`
(the example from the source's doc comment), so every row matched by the
former is matched by the latter; applied to the row `123456`. -/
theorem is_subset_of_spec_witness :
    Mask.matches ⟨[none, none, none, none, some 4, some 5]⟩ [0, 1, 2, 3, 4, 5] = true :=
  (is_subset_of_spec ⟨[none, none, some 2, some 3, some 4, some 5]⟩
      ⟨[none, none, none, none, some 4, some 5]⟩).2.2
    (by decide) [0, 1, 2, 3, 4, 5] (by decide)

/-- Helper: `getD` of a mapped list at an in-range index. -/
theorem list_getD_map {α β : Type} (f : α → β) (l : List α) (i : Nat)
    (h : i < l.length) (d : β) (d0 : α) :
    (l.map f).getD i d = f (l.getD i d0) := by
  rw [List.getD_eq_getElem _ _ (by simpa using h), List.getD_eq_getElem _ _ h]
  simp

/-- Claim C8: for every `Mask` `m` and `Row`s `r`, `s` of the same stage, if
`m` matches `s` then `m * r` matches `s * r` and `r * m` matches `r * s`:
right-multiplying a mask by a row permutes which positions are constrained
and left-multiplying permutes which bells are required, consistently with
row composition. -/
theorem mask_row_mul_matches (n : Nat) (m : Mask) (r s : List Bell)
    (hm : m.stage = n) (hr : IsRow n r) (hs : IsRow n s)
    (hmatch : m.matches s = true) :
    ∃ mr rm, mask_mul_row m r = some mr ∧ row_mul_mask r m = some rm ∧
      mr.matches (row_mul s r) = true ∧ rm.matches (row_mul r s) = true := by
  obtain ⟨hrlen, -, -⟩ := hr
  obtain ⟨hslen, -, -⟩ := hs
  obtain ⟨hms, hmpos⟩ := (mask_matches_iff m s).mp hmatch
  have hms' : m.bells.length = s.length := hms
  have hmr : mask_mul_row m r = some ⟨r.map fun b => m.bells.getD b none⟩ := by
    unfold mask_mul_row
    rw [if_pos (by omega)]
  have hrm : row_mul_mask r m =
      some ⟨m.bells.map fun maybe_bell => maybe_bell.map fun b => r.getD b 0⟩ := by
    unfold row_mul_mask
    rw [if_pos (by omega)]
  refine ⟨_, _, hmr, hrm, ?_, ?_⟩
  · rw [mask_matches_iff]
    refine ⟨by simp [Mask.stage, row_mul], ?_⟩
    intro i b hb
    by_cases hi : i < r.length
    · rw [list_getD_map _ _ _ hi _ 0] at hb
      have hgoal := hmpos (r.getD i 0) b hb
      rw [row_mul, list_getD_map _ _ _ hi _ 0]
      exact hgoal
    · rw [list_getD_of_not_lt _ _ _ (by simpa using hi)] at hb
      simp at hb
  · rw [mask_matches_iff]
    refine ⟨by simp [Mask.stage, row_mul]; omega, ?_⟩
    intro i b hb
    by_cases hi : i < m.bells.length
    · rw [list_getD_map _ _ _ hi _ none] at hb
      cases hmb : m.bells.getD i none with
      | none =>
        rw [hmb] at hb
        simp at hb
      | some bb =>
        rw [hmb] at hb
        simp only [Option.map_some', Option.some.injEq] at hb
        have hsi := hmpos i bb hmb
        have hi' : i < s.length := by omega
        rw [row_mul, list_getD_map _ _ _ hi' _ 0, hsi]
        exact hb
    · rw [list_getD_of_not_lt _ _ _ (by simpa using hi)] at hb
      simp at hb

/-- Witness for `mask_row_mul_matches` at the repository's own unit-test
vectors: `m = 1xx45`, `r = 32154`, `s = 12345` (stage 5). -/
theorem mask_row_mul_matches_witness :
    ∃ mr rm,
      mask_mul_row ⟨[some 0, none, none, some 3, some 4]⟩ [2, 1, 0, 4, 3] = some mr ∧
      row_mul_mask [2, 1, 0, 4, 3] ⟨[some 0, none, none, some 3, some 4]⟩ = some rm ∧
      mr.matches (row_mul [0, 1, 2, 3, 4] [2, 1, 0, 4, 3]) = true ∧
      rm.matches (row_mul [2, 1, 0, 4, 3] [0, 1, 2, 3, 4]) = true :=
  mask_row_mul_matches 5 ⟨[some 0, none, none, some 3, some 4]⟩
    [2, 1, 0, 4, 3] [0, 1, 2, 3, 4] (by decide)
    ⟨by decide, by decide, by decide⟩ ⟨by decide, by decide, by decide⟩ (by decide)

/-! ### `monument/lib/src/graph/mod.rs` — `LinkSet` (claim C10)

`LinkSet` (graph/mod.rs lines 244-307) is a `HashMap<LinkId, Link>` plus a
monotonically increasing `next_id` counter.  The hash map is modelled as an
association list whose `insert` overwrites any previous binding, `get` is
the first-match lookup, and `retain` filters.  The `Link` type itself is
irrelevant to the claim and stays an arbitrary type `L`. -/

abbrev LinkId := Nat

structure LinkSet (L : Type) where
  next_id : Nat
  map : List (LinkId × L)

def LinkSet.new (L : Type) : LinkSet L :=
  { next_id := 0, map := [] }

/-- Overwriting insert of the modelled `HashMap`. -/
def map_insert {L : Type} (id : LinkId) (link : L) (m : List (LinkId × L)) :
    List (LinkId × L) :=
  (id, link) :: m.filter (fun p => p.1 ≠ id)

/-- Embedding of `LinkSet::add`: take the next fresh id, insert, and return
the id alongside the updated set. -/
def LinkSet.add {L : Type} (s : LinkSet L) (link : L) : LinkSet L × LinkId :=
  let id := s.next_id
  ({ next_id := s.next_id + 1, map := map_insert id link s.map }, id)

def LinkSet.get {L : Type} (s : LinkSet L) (id : LinkId) : Option L :=
  (s.map.find? (fun p => p.1 = id)).map Prod.snd

def LinkSet.contains {L : Type} (s : LinkSet L) (id : LinkId) : Bool :=
  (s.map.find? (fun p => p.1 = id)).isSome

def LinkSet.retain {L : Type} (s : LinkSet L) (pred : LinkId → L → Bool) :
    LinkSet L :=
  { s with map := s.map.filter (fun p => pred p.1 p.2) }

/-- A client-visible operation on a `LinkSet`. -/
inductive LinkSetOp (L : Type) where
  | add (link : L)
  | retain (pred : LinkId → L → Bool)

/-- Run a sequence of operations from a given state, collecting the ids
returned by the `add` calls in order. -/
def run_link_ops {L : Type} : LinkSet L → List (LinkSetOp L) → LinkSet L × List LinkId
  | s, [] => (s, [])
  | s, LinkSetOp.add link :: ops =>
    let (s', id) := s.add link
    let (s'', ids) := run_link_ops s' ops
    (s'', id :: ids)
  | s, LinkSetOp.retain pred :: ops => run_link_ops (s.retain pred) ops

/-- Helper: the number of `add` operations in a list. -/
def count_adds {L : Type} : List (LinkSetOp L) → Nat
  | [] => 0
  | LinkSetOp.add _ :: ops => count_adds ops + 1
  | LinkSetOp.retain _ :: ops => count_adds ops

/-- Helper: the ids returned by a run are exactly the consecutive range
starting at the initial `next_id`, and the final `next_id` sits past them. -/
theorem run_link_ops_ids {L : Type} :
    ∀ (ops : List (LinkSetOp L)) (s : LinkSet L),
      (run_link_ops s ops).2 = List.range' s.next_id (count_adds ops) ∧
      (run_link_ops s ops).1.next_id = s.next_id + count_adds ops := by
  intro ops
  induction ops with
  | nil => intro s; simp [run_link_ops, count_adds]
  | cons op ops ih =>
    intro s
    cases op with
    | add link =>
      obtain ⟨h1, h2⟩ := ih ⟨s.next_id + 1, map_insert s.next_id link s.map⟩
      dsimp only at h1 h2
      constructor
      · show s.next_id :: (run_link_ops _ ops).2 =
          List.range' s.next_id (count_adds ops + 1)
        rw [h1, List.range'_succ]
      · show (run_link_ops _ ops).1.next_id = s.next_id + (count_adds ops + 1)
        rw [h2]
        ring
    | retain pred =>
      obtain ⟨h1, h2⟩ := ih (s.retain pred)
      exact ⟨by simpa [LinkSet.retain, count_adds] using h1,
        by simpa [LinkSet.retain, count_adds] using h2⟩

/-- Claim C10: for every sequence of `add`/`retain` operations starting from
`LinkSet::new()`, the `LinkId`s returned by the `add` calls are pairwise
distinct (an id is never reused, even after `retain` removes the link it
named); and immediately after `add(link)` returns `id`, the id is fresh,
`contains(id)` holds and `get(id)` returns the added link. -/
theorem link_set_spec {L : Type} (ops : List (LinkSetOp L)) (link : L) :
    ((run_link_ops (LinkSet.new L) ops).2).Nodup ∧
    ((run_link_ops (LinkSet.new L) ops).1.add link).2 ∉
      (run_link_ops (LinkSet.new L) ops).2 ∧
    (((run_link_ops (LinkSet.new L) ops).1.add link).1.contains
      ((run_link_ops (LinkSet.new L) ops).1.add link).2) = true ∧
    (((run_link_ops (LinkSet.new L) ops).1.add link).1.get
      ((run_link_ops (LinkSet.new L) ops).1.add link).2) = some link := by
  obtain ⟨hids, hnext⟩ := run_link_ops_ids ops (LinkSet.new L)
  refine ⟨?_, ?_, ?_, ?_⟩
  · rw [hids]
    exact List.nodup_range' _ _ 1 (by norm_num)
  · rw [hids]
    intro hmem
    rw [List.mem_range'_1] at hmem
    have : ((run_link_ops (LinkSet.new L) ops).1.add link).2 =
        (run_link_ops (LinkSet.new L) ops).1.next_id := rfl
    rw [this, hnext] at hmem
    simp [LinkSet.new] at hmem
  · simp [LinkSet.add, LinkSet.contains, map_insert, List.find?]
  · simp [LinkSet.add, LinkSet.get, map_insert, List.find?]

/-! ### `monument/lib/src/search/best_first.rs` — memory bound (claim C1)

`truncate_queue` (best_first.rs lines 122-130) drains a `BinaryHeap` into a
`Vec`, sorts it highest-first with `sort_by(|a, b| b.cmp(a))`, keeps the
first `len` elements and rebuilds the heap.  A `BinaryHeap<T>` is a
multiset of `T`s, modelled as a `List T` over a `LinearOrder` (Rust's
`T: Ord`); `into_vec`'s arbitrary element order is irrelevant because the
contents are compared as multisets.  The memory-limit step at the end of
each search iteration (best_first.rs lines 58-66) is embedded over an
abstract arena type `Q`: `paths.estimate_heap_size()` and
`paths.gc(frontier.iter().map(|p| p.path_head()))` are parameters, because
`search/path.rs` is not among the provided sources. -/

def truncate_queue {T : Type} [LinearOrder T] (len : Nat) (queue : List T) : List T :=
  let chunks := List.insertionSort (fun a b => b ≤ a) queue
  chunks.take len

/-- Embedding of best_first.rs lines 58-66: the memory estimate is
`frontier.len() * prefix_size + paths.estimate_heap_size()`; when it reaches
`mem_limit` the queue is halved and the paths arena is garbage-collected to
the survivors' path heads (`gc` is the abstract collector). -/
def memory_limit_step {T Q : Type} [LinearOrder T]
    (mem_limit prefix_size : Nat) (estimate_heap_size : Q → Nat)
    (gc : Q → List T → Q)
    (frontier : List T) (paths : Q) : List T × Q :=
  let mem_usage := frontier.length * prefix_size + estimate_heap_size paths
  if mem_usage ≥ mem_limit then
    let frontier2 := truncate_queue (frontier.length / 2) frontier
    (frontier2, gc paths frontier2)
  else
    (frontier, paths)

/-- Counterexample to claim C1 as stated: when the memory estimate *equals*
`mem_limit` (so does not *exceed* it), the code still truncates the
frontier — the guard in the source is `mem_usage >= mem_limit`, not `>`.
Here `frontier = [1, 2]`, `prefix_size = 1`, heap size 0, `mem_limit = 2`:
the estimate is exactly 2, yet the frontier is halved to `[2]`. -/
theorem memory_limit_step_counterexample :
    ¬((2 : Nat) * 1 + 0 > 2) ∧
    memory_limit_step (T := Nat) (Q := Nat) 2 1 (fun _ => 0) (fun p _ => p)
      [1, 2] 0 ≠ ([1, 2], 0) := by
  refine ⟨by decide, ?_⟩
  decide

instance truncate_rel_total {T : Type} [LinearOrder T] :
    IsTotal T (fun a b => b ≤ a) :=
  ⟨fun a b => le_total b a⟩

instance truncate_rel_trans {T : Type} [LinearOrder T] :
    IsTrans T (fun a b => b ≤ a) :=
  ⟨fun _ _ _ h1 h2 => le_trans h2 h1⟩

/-- Claim C1 (amended): the memory-limit step truncates and garbage-collects
when the estimate is *at least* `mem_limit` (the source guard is `>=`, not
`>` as the claim's word "exceeds" says), and leaves the frontier and paths
unchanged when the estimate is strictly below the limit; and for every `len`
and queue, `truncate_queue len queue` keeps exactly the `min(len, n)`
greatest elements of the queue under the `Ord` ordering: the kept elements
are a sub-multiset of the original of that size, and every kept element is
at least every discarded one. -/
theorem memory_limit_step_spec {T Q : Type} [LinearOrder T]
    (mem_limit prefix_size : Nat) (estimate_heap_size : Q → Nat)
    (gc : Q → List T → Q) (frontier : List T) (paths : Q) :
    (frontier.length * prefix_size + estimate_heap_size paths ≥ mem_limit →
      memory_limit_step mem_limit prefix_size estimate_heap_size gc frontier paths =
        (truncate_queue (frontier.length / 2) frontier,
         gc paths (truncate_queue (frontier.length / 2) frontier))) ∧
    (frontier.length * prefix_size + estimate_heap_size paths < mem_limit →
      memory_limit_step mem_limit prefix_size estimate_heap_size gc frontier paths =
        (frontier, paths)) ∧
    (∀ (len : Nat) (queue : List T), ∃ rest,
      (truncate_queue len queue).length = min len queue.length ∧
      (truncate_queue len queue ++ rest).Perm queue ∧
      ∀ x ∈ truncate_queue len queue, ∀ y ∈ rest, y ≤ x) := by
  refine ⟨?_, ?_, ?_⟩
  · intro h
    unfold memory_limit_step
    rw [if_pos h]
  · intro h
    unfold memory_limit_step
    rw [if_neg (by omega)]
  · intro len queue
    refine ⟨(List.insertionSort (fun a b => b ≤ a) queue).drop len, ?_, ?_, ?_⟩
    · show ((List.insertionSort (fun a b => b ≤ a) queue).take len).length = _
      rw [List.length_take, List.length_insertionSort]
    · show ((List.insertionSort (fun a b => b ≤ a) queue).take len ++
        (List.insertionSort (fun a b => b ≤ a) queue).drop len).Perm queue
      rw [List.take_append_drop]
      exact List.perm_insertionSort _ queue
    · have hsorted : List.Pairwise (fun a b => b ≤ a)
          (List.insertionSort (fun a b => b ≤ a) queue) :=
        List.sorted_insertionSort _ queue
      rw [← List.take_append_drop len (List.insertionSort (fun a b => b ≤ a) queue)]
        at hsorted
      exact fun x hx y hy => (List.pairwise_append.mp hsorted).2.2 x hx y hy

/-- Witness for `memory_limit_step_spec`: a frontier of three `Nat`s with
`prefix_size = 1` and an empty arena against `mem_limit = 2` overruns the
limit, so the step halves the queue (keeping the greatest element) and
garbage-collects. -/
theorem memory_limit_step_spec_witness :
    memory_limit_step (T := Nat) (Q := Nat) 2 1 (fun _ => 0) (fun p _ => p)
      [3, 1, 2] 0 =
      (truncate_queue 1 [3, 1, 2], 0) :=
  (memory_limit_step_spec 2 1 (fun _ => 0) (fun p _ => p) [3, 1, 2] 0).1 (by decide)

/-! ### `monument/lib/src/search/best_first.rs` — the search loop (claim C6)

The loop of `search` (best_first.rs lines 16-91) is embedded with explicit
state.  `CompPrefix::expand` (search/prefix.rs, not among the provided
sources) is an arbitrary function `expand`: it consumes the popped prefix
and may mutate the paths arena, push extensions onto the frontier and
produce a composition.  The abort flag is a function of the iteration count
at which it is polled (it is a shared atomic that may change over time).
The `f32` field `avg_length` of `Progress` is omitted from the update
model; `queue_len`, `iter_count`, `num_comps` and `truncating_queue` are
kept.  `Update::Aborting` exists as sent by best_first.rs line 72.  The
Rust loop has no fuel; the model takes fuel and reports `none` as exit
reason if the fuel runs out mid-loop, in which case no final progress
update is emitted. -/

def ITERS_BETWEEN_ABORT_CHECKS : Nat := 10000

def ITERS_BETWEEN_PROGRESS_UPDATES : Nat := 100000

inductive SearchUpdate (C : Type) where
  | comp (c : C)
  | progress (queue_len iter_count num_comps : Nat) (truncating_queue : Bool)
  | aborting
deriving DecidableEq

inductive ExitReason where
  | frontierEmpty
  | enoughComps
  | aborted
deriving DecidableEq, Repr

structure SearchState (T Q : Type) where
  frontier : List T
  paths : Q
  iter_count : Nat
  num_comps : Nat

structure LoopResult (T Q C : Type) where
  trace : List (SearchUpdate C)
  reason : Option ExitReason
  final : SearchState T Q

/-- `BinaryHeap::pop` removes a greatest element. -/
def heap_pop {T : Type} [LinearOrder T] (l : List T) : Option (T × List T) :=
  match l.max? with
  | none => none
  | some m => some (m, l.erase m)

/-- The composition update message sent when `expand` produced one. -/
def comp_trace {C : Type} (mc : Option C) : List (SearchUpdate C) :=
  match mc with
  | some c => [SearchUpdate.comp c]
  | none => []

/-- `num_comps += 1` when a composition was produced. -/
def bump_comps {C : Type} (mc : Option C) (n : Nat) : Nat :=
  match mc with
  | some _ => n + 1
  | none => n

/-- The memory-limit condition `mem_usage >= mem_limit`. -/
def mem_exceeded {T Q : Type} (mem_limit prefix_size : Nat)
    (estimate_heap_size : Q → Nat) (frontier1 : List T) (paths1 : Q) :
    Prop :=
  frontier1.length * prefix_size + estimate_heap_size paths1 ≥ mem_limit

instance {T Q : Type} (mem_limit prefix_size : Nat)
    (estimate_heap_size : Q → Nat) (frontier1 : List T) (paths1 : Q) :
    Decidable (mem_exceeded mem_limit prefix_size estimate_heap_size frontier1 paths1) :=
  inferInstanceAs (Decidable (_ ≥ _))

/-- The frontier after the memory-limit step of one iteration. -/
def frontier_after_mem {T Q : Type} [LinearOrder T]
    (mem_limit prefix_size : Nat) (estimate_heap_size : Q → Nat)
    (frontier1 : List T) (paths1 : Q) : List T :=
  if mem_exceeded mem_limit prefix_size estimate_heap_size frontier1 paths1 then
    truncate_queue (frontier1.length / 2) frontier1
  else frontier1

/-- The paths arena after the memory-limit step of one iteration. -/
def paths_after_mem {T Q : Type} [LinearOrder T]
    (mem_limit prefix_size : Nat) (estimate_heap_size : Q → Nat)
    (gc : Q → List T → Q)
    (frontier1 : List T) (paths1 : Q) : Q :=
  if mem_exceeded mem_limit prefix_size estimate_heap_size frontier1 paths1 then
    gc paths1 (frontier_after_mem mem_limit prefix_size estimate_heap_size
      frontier1 paths1)
  else paths1

/-- The progress updates bracketing a queue truncation. -/
def mem_trace {T Q C : Type} [LinearOrder T]
    (mem_limit prefix_size : Nat) (estimate_heap_size : Q → Nat)
    (frontier1 : List T) (paths1 : Q) (ic nc : Nat) :
    List (SearchUpdate C) :=
  if mem_exceeded mem_limit prefix_size estimate_heap_size frontier1 paths1 then
    [SearchUpdate.progress frontier1.length ic nc true,
     SearchUpdate.progress
       (frontier_after_mem mem_limit prefix_size estimate_heap_size
         frontier1 paths1).length ic nc false]
  else []

/-- The periodic progress update (every `ITERS_BETWEEN_PROGRESS_UPDATES`
iterations). -/
def prog_trace {C : Type} (iter1 queue_len nc : Nat) :
    List (SearchUpdate C) :=
  if iter1 % ITERS_BETWEEN_PROGRESS_UPDATES = 0 then
    [SearchUpdate.progress queue_len iter1 nc false]
  else []

/-- Embedding of the `while let Some(prefix) = frontier.pop()` loop of
`search` (best_first.rs lines 45-80), with explicit fuel. -/
def search_loop {T Q C : Type} [LinearOrder T]
    (expand : T → Q → List T → Q × List T × Option C)
    (query_num_comps mem_limit prefix_size : Nat)
    (estimate_heap_size : Q → Nat) (gc : Q → List T → Q)
    (abort_flag : Nat → Bool) :
    Nat → SearchState T Q → LoopResult T Q C
  | 0, st => ⟨[], none, st⟩
  | fuel + 1, st =>
    match heap_pop st.frontier with
    | none => ⟨[], some ExitReason.frontierEmpty, st⟩
    | some (p0, rest) =>
      match expand p0 st.paths rest with
      | (paths1, frontier1, mc) =>
        if mc.isSome ∧ bump_comps mc st.num_comps = query_num_comps then
          ⟨comp_trace mc, some ExitReason.enoughComps,
            ⟨frontier1, paths1, st.iter_count, bump_comps mc st.num_comps⟩⟩
        else if (st.iter_count + 1) % ITERS_BETWEEN_ABORT_CHECKS = 0 ∧
            abort_flag (st.iter_count + 1) = true then
          ⟨comp_trace mc ++
            mem_trace mem_limit prefix_size estimate_heap_size frontier1 paths1
              st.iter_count (bump_comps mc st.num_comps) ++
            [SearchUpdate.aborting],
           some ExitReason.aborted,
            ⟨frontier_after_mem mem_limit prefix_size estimate_heap_size
               frontier1 paths1,
             paths_after_mem mem_limit prefix_size estimate_heap_size gc
               frontier1 paths1,
             st.iter_count + 1, bump_comps mc st.num_comps⟩⟩
        else
          ⟨comp_trace mc ++
            mem_trace mem_limit prefix_size estimate_heap_size frontier1 paths1
              st.iter_count (bump_comps mc st.num_comps) ++
            prog_trace (st.iter_count + 1)
              (frontier_after_mem mem_limit prefix_size estimate_heap_size
                frontier1 paths1).length (bump_comps mc st.num_comps) ++
            (search_loop expand query_num_comps mem_limit prefix_size
              estimate_heap_size gc abort_flag fuel
              ⟨frontier_after_mem mem_limit prefix_size estimate_heap_size
                 frontier1 paths1,
               paths_after_mem mem_limit prefix_size estimate_heap_size gc
                 frontier1 paths1,
               st.iter_count + 1, bump_comps mc st.num_comps⟩).trace,
           (search_loop expand query_num_comps mem_limit prefix_size
              estimate_heap_size gc abort_flag fuel
              ⟨frontier_after_mem mem_limit prefix_size estimate_heap_size
                 frontier1 paths1,
               paths_after_mem mem_limit prefix_size estimate_heap_size gc
                 frontier1 paths1,
               st.iter_count + 1, bump_comps mc st.num_comps⟩).reason,
           (search_loop expand query_num_comps mem_limit prefix_size
              estimate_heap_size gc abort_flag fuel
              ⟨frontier_after_mem mem_limit prefix_size estimate_heap_size
                 frontier1 paths1,
               paths_after_mem mem_limit prefix_size estimate_heap_size gc
                 frontier1 paths1,
               st.iter_count + 1, bump_comps mc st.num_comps⟩).final⟩

/-- Embedding of `search` (best_first.rs lines 16-91): run the loop, then
always send a final progress update (when the loop actually exited). -/
def search_updates {T Q C : Type} [LinearOrder T]
    (expand : T → Q → List T → Q × List T × Option C)
    (query_num_comps mem_limit prefix_size : Nat)
    (estimate_heap_size : Q → Nat) (gc : Q → List T → Q)
    (abort_flag : Nat → Bool)
    (fuel : Nat) (st : SearchState T Q) : List (SearchUpdate C) :=
  match search_loop expand query_num_comps mem_limit prefix_size
      estimate_heap_size gc abort_flag fuel st with
  | r =>
    match r.reason with
    | some _ => r.trace ++
        [SearchUpdate.progress r.final.frontier.length r.final.iter_count
          r.final.num_comps false]
    | none => r.trace

/-- Helper: no `Aborting` message inside a `comp_trace`. -/
theorem aborting_not_mem_comp_trace {C : Type} (mc : Option C) :
    SearchUpdate.aborting ∉ comp_trace mc := by
  cases mc <;> simp [comp_trace]

/-- Helper: no `Aborting` message inside the truncation progress updates. -/
theorem aborting_not_mem_mem_trace {T Q C : Type} [LinearOrder T]
    (mem_limit prefix_size : Nat) (estimate_heap_size : Q → Nat)
    (frontier1 : List T) (paths1 : Q) (ic nc : Nat) :
    SearchUpdate.aborting ∉
      (mem_trace mem_limit prefix_size estimate_heap_size frontier1 paths1
        ic nc : List (SearchUpdate C)) := by
  unfold mem_trace
  split <;> simp

/-- Helper: no `Aborting` message inside a periodic progress update. -/
theorem aborting_not_mem_prog_trace {C : Type} (iter1 queue_len nc : Nat) :
    SearchUpdate.aborting ∉
      (prog_trace iter1 queue_len nc : List (SearchUpdate C)) := by
  unfold prog_trace
  split <;> simp

/-- Helper: when the loop exits with `aborted`, the abort flag was observed
true at an iteration count that is a multiple of
`ITERS_BETWEEN_ABORT_CHECKS` and larger than the starting count. -/
theorem search_loop_abort_flag {T Q C : Type} [LinearOrder T]
    (expand : T → Q → List T → Q × List T × Option C)
    (query_num_comps mem_limit prefix_size : Nat)
    (estimate_heap_size : Q → Nat) (gc : Q → List T → Q)
    (abort_flag : Nat → Bool) :
    ∀ (fuel : Nat) (st : SearchState T Q),
      (search_loop expand query_num_comps mem_limit prefix_size
        estimate_heap_size gc abort_flag fuel st
        (C := C)).reason = some ExitReason.aborted →
      ∃ i, st.iter_count < i ∧ i % ITERS_BETWEEN_ABORT_CHECKS = 0 ∧
        abort_flag i = true := by
  intro fuel
  induction fuel with
  | zero =>
    intro st h
    simp [search_loop] at h
  | succ fuel ih =>
    intro st h
    rw [search_loop] at h
    rcases hpop : heap_pop st.frontier with _ | ⟨p0, rest⟩
    · rw [hpop] at h
      simp at h
    · rw [hpop] at h
      dsimp only at h
      rcases hexp : expand p0 st.paths rest with ⟨paths1, frontier1, mc⟩
      rw [hexp] at h
      dsimp only at h
      by_cases h1 : (mc.isSome = true ∧ bump_comps mc st.num_comps = query_num_comps)
      · rw [if_pos h1] at h
        simp at h
      · rw [if_neg h1] at h
        by_cases h2 : ((st.iter_count + 1) % ITERS_BETWEEN_ABORT_CHECKS = 0 ∧
            abort_flag (st.iter_count + 1) = true)
        · exact ⟨st.iter_count + 1, by omega, h2.1, h2.2⟩
        · rw [if_neg h2] at h
          dsimp only at h
          obtain ⟨i, hi1, hi2, hi3⟩ := ih _ h
          dsimp only at hi1
          exact ⟨i, by omega, hi2, hi3⟩

/-- Helper: if the abort flag is false at every multiple of
`ITERS_BETWEEN_ABORT_CHECKS`, then the loop never sends `Aborting` and
never exits with `aborted` — the flag is polled only at those counts. -/
theorem search_loop_no_abort {T Q C : Type} [LinearOrder T]
    (expand : T → Q → List T → Q × List T × Option C)
    (query_num_comps mem_limit prefix_size : Nat)
    (estimate_heap_size : Q → Nat) (gc : Q → List T → Q)
    (abort_flag : Nat → Bool)
    (hflag : ∀ i, i % ITERS_BETWEEN_ABORT_CHECKS = 0 → abort_flag i = false) :
    ∀ (fuel : Nat) (st : SearchState T Q),
      SearchUpdate.aborting ∉ (search_loop expand query_num_comps mem_limit
        prefix_size estimate_heap_size gc abort_flag fuel st
        (C := C)).trace ∧
      (search_loop expand query_num_comps mem_limit prefix_size
        estimate_heap_size gc abort_flag fuel st
        (C := C)).reason ≠ some ExitReason.aborted := by
  intro fuel
  induction fuel with
  | zero =>
    intro st
    simp [search_loop]
  | succ fuel ih =>
    intro st
    rw [search_loop]
    rcases hpop : heap_pop st.frontier with _ | ⟨p0, rest⟩
    · simp
    · dsimp only
      rcases hexp : expand p0 st.paths rest with ⟨paths1, frontier1, mc⟩
      dsimp only
      by_cases h1 : (mc.isSome = true ∧ bump_comps mc st.num_comps = query_num_comps)
      · rw [if_pos h1]
        exact ⟨aborting_not_mem_comp_trace mc, by simp⟩
      · rw [if_neg h1]
        have h2 : ¬((st.iter_count + 1) % ITERS_BETWEEN_ABORT_CHECKS = 0 ∧
            abort_flag (st.iter_count + 1) = true) := by
          rintro ⟨hmod, htrue⟩
          rw [hflag _ hmod] at htrue
          simp at htrue
        rw [if_neg h2]
        dsimp only
        obtain ⟨ih1, ih2⟩ := ih ⟨frontier_after_mem mem_limit prefix_size
            estimate_heap_size frontier1 paths1,
          paths_after_mem mem_limit prefix_size estimate_heap_size gc
            frontier1 paths1,
          st.iter_count + 1, bump_comps mc st.num_comps⟩
        refine ⟨?_, ih2⟩
        intro hmem
        simp only [List.mem_append] at hmem
        rcases hmem with ((hmem | hmem) | hmem) | hmem
        · exact aborting_not_mem_comp_trace mc hmem
        · exact aborting_not_mem_mem_trace mem_limit prefix_size
            estimate_heap_size frontier1 paths1 _ _ hmem
        · exact aborting_not_mem_prog_trace _ _ _ hmem
        · exact ih1 hmem

/-- Helper: unfolding equation of `search_loop` when the frontier is empty. -/
theorem search_loop_succ_of_none {T Q C : Type} [LinearOrder T]
    (expand : T → Q → List T → Q × List T × Option C)
    (query_num_comps mem_limit prefix_size : Nat)
    (estimate_heap_size : Q → Nat) (gc : Q → List T → Q)
    (abort_flag : Nat → Bool) (fuel : Nat) (st : SearchState T Q)
    (hpop : heap_pop st.frontier = none) :
    search_loop expand query_num_comps mem_limit prefix_size
      estimate_heap_size gc abort_flag (fuel + 1) st (C := C) =
      ⟨[], some ExitReason.frontierEmpty, st⟩ := by
  rw [search_loop, hpop]

/-- Helper: unfolding equation of `search_loop` for one full iteration. -/
theorem search_loop_succ_of_some {T Q C : Type} [LinearOrder T]
    (expand : T → Q → List T → Q × List T × Option C)
    (query_num_comps mem_limit prefix_size : Nat)
    (estimate_heap_size : Q → Nat) (gc : Q → List T → Q)
    (abort_flag : Nat → Bool) (fuel : Nat) (st : SearchState T Q)
    (p0 : T) (rest : List T) (paths1 : Q) (frontier1 : List T)
    (mc : Option C)
    (hpop : heap_pop st.frontier = some (p0, rest))
    (hexp : expand p0 st.paths rest = (paths1, frontier1, mc)) :
    search_loop expand query_num_comps mem_limit prefix_size
      estimate_heap_size gc abort_flag (fuel + 1) st (C := C) =
      (if mc.isSome ∧ bump_comps mc st.num_comps = query_num_comps then
        ⟨comp_trace mc, some ExitReason.enoughComps,
          ⟨frontier1, paths1, st.iter_count, bump_comps mc st.num_comps⟩⟩
      else if (st.iter_count + 1) % ITERS_BETWEEN_ABORT_CHECKS = 0 ∧
          abort_flag (st.iter_count + 1) = true then
        ⟨comp_trace mc ++
          mem_trace mem_limit prefix_size estimate_heap_size frontier1 paths1
            st.iter_count (bump_comps mc st.num_comps) ++
          [SearchUpdate.aborting],
         some ExitReason.aborted,
          ⟨frontier_after_mem mem_limit prefix_size estimate_heap_size
             frontier1 paths1,
           paths_after_mem mem_limit prefix_size estimate_heap_size gc
             frontier1 paths1,
           st.iter_count + 1, bump_comps mc st.num_comps⟩⟩
      else
        ⟨comp_trace mc ++
          mem_trace mem_limit prefix_size estimate_heap_size frontier1 paths1
            st.iter_count (bump_comps mc st.num_comps) ++
          prog_trace (st.iter_count + 1)
            (frontier_after_mem mem_limit prefix_size estimate_heap_size
              frontier1 paths1).length (bump_comps mc st.num_comps) ++
          (search_loop expand query_num_comps mem_limit prefix_size
            estimate_heap_size gc abort_flag fuel
            ⟨frontier_after_mem mem_limit prefix_size estimate_heap_size
               frontier1 paths1,
             paths_after_mem mem_limit prefix_size estimate_heap_size gc
               frontier1 paths1,
             st.iter_count + 1, bump_comps mc st.num_comps⟩).trace,
         (search_loop expand query_num_comps mem_limit prefix_size
            estimate_heap_size gc abort_flag fuel
            ⟨frontier_after_mem mem_limit prefix_size estimate_heap_size
               frontier1 paths1,
             paths_after_mem mem_limit prefix_size estimate_heap_size gc
               frontier1 paths1,
             st.iter_count + 1, bump_comps mc st.num_comps⟩).reason,
         (search_loop expand query_num_comps mem_limit prefix_size
            estimate_heap_size gc abort_flag fuel
            ⟨frontier_after_mem mem_limit prefix_size estimate_heap_size
               frontier1 paths1,
             paths_after_mem mem_limit prefix_size estimate_heap_size gc
               frontier1 paths1,
             st.iter_count + 1, bump_comps mc st.num_comps⟩).final⟩) := by
  rw [search_loop, hpop]
  dsimp only
  rw [hexp]

/-- Helper: an aborted loop run ends its update trace with `Aborting`. -/
theorem search_loop_abort_shape {T Q C : Type} [LinearOrder T]
    (expand : T → Q → List T → Q × List T × Option C)
    (query_num_comps mem_limit prefix_size : Nat)
    (estimate_heap_size : Q → Nat) (gc : Q → List T → Q)
    (abort_flag : Nat → Bool) :
    ∀ (fuel : Nat) (st : SearchState T Q),
      (search_loop expand query_num_comps mem_limit prefix_size
        estimate_heap_size gc abort_flag fuel st
        (C := C)).reason = some ExitReason.aborted →
      ∃ pre, (search_loop expand query_num_comps mem_limit prefix_size
        estimate_heap_size gc abort_flag fuel st
        (C := C)).trace = pre ++ [SearchUpdate.aborting] := by
  intro fuel
  induction fuel with
  | zero =>
    intro st h
    simp [search_loop] at h
  | succ fuel ih =>
    intro st h
    rcases hpop : heap_pop st.frontier with _ | ⟨p0, rest⟩
    · rw [search_loop_succ_of_none expand query_num_comps mem_limit prefix_size
        estimate_heap_size gc abort_flag fuel st hpop] at h
      simp at h
    · rcases hexp : expand p0 st.paths rest with ⟨paths1, frontier1, mc⟩
      rw [search_loop_succ_of_some expand query_num_comps mem_limit prefix_size
        estimate_heap_size gc abort_flag fuel st p0 rest paths1 frontier1 mc
        hpop hexp] at h ⊢
      by_cases h1 : (mc.isSome = true ∧ bump_comps mc st.num_comps = query_num_comps)
      · rw [if_pos h1] at h
        simp at h
      · rw [if_neg h1] at h ⊢
        by_cases h2 : ((st.iter_count + 1) % ITERS_BETWEEN_ABORT_CHECKS = 0 ∧
            abort_flag (st.iter_count + 1) = true)
        · rw [if_pos h2]
          exact ⟨_, rfl⟩
        · rw [if_neg h2] at h ⊢
          dsimp only at h ⊢
          obtain ⟨pre, hpre⟩ := ih _ h
          refine ⟨comp_trace mc ++
            mem_trace mem_limit prefix_size estimate_heap_size frontier1 paths1
              st.iter_count (bump_comps mc st.num_comps) ++
            prog_trace (st.iter_count + 1)
              (frontier_after_mem mem_limit prefix_size estimate_heap_size
                frontier1 paths1).length (bump_comps mc st.num_comps) ++ pre, ?_⟩
          rw [hpre]
          simp [List.append_assoc]

/-- Helper: every loop exit is the empty frontier, the composition quota,
or an abort, with the matching fact about the final state. -/
theorem search_loop_exit {T Q C : Type} [LinearOrder T]
    (expand : T → Q → List T → Q × List T × Option C)
    (query_num_comps mem_limit prefix_size : Nat)
    (estimate_heap_size : Q → Nat) (gc : Q → List T → Q)
    (abort_flag : Nat → Bool) :
    ∀ (fuel : Nat) (st : SearchState T Q) (r : ExitReason),
      (search_loop expand query_num_comps mem_limit prefix_size
        estimate_heap_size gc abort_flag fuel st
        (C := C)).reason = some r →
      (r = ExitReason.aborted ∨
       (r = ExitReason.frontierEmpty ∧
         (search_loop expand query_num_comps mem_limit prefix_size
           estimate_heap_size gc abort_flag fuel st
           (C := C)).final.frontier = []) ∨
       (r = ExitReason.enoughComps ∧
         (search_loop expand query_num_comps mem_limit prefix_size
           estimate_heap_size gc abort_flag fuel st
           (C := C)).final.num_comps = query_num_comps)) := by
  intro fuel
  induction fuel with
  | zero =>
    intro st r h
    simp [search_loop] at h
  | succ fuel ih =>
    intro st r h
    rcases hpop : heap_pop st.frontier with _ | ⟨p0, rest⟩
    · rw [search_loop_succ_of_none expand query_num_comps mem_limit prefix_size
        estimate_heap_size gc abort_flag fuel st hpop] at h ⊢
      have hfr : st.frontier = [] := by
        unfold heap_pop at hpop
        rcases hmax : st.frontier.max? with _ | m
        · exact List.max?_eq_none_iff.mp hmax
        · rw [hmax] at hpop
          simp at hpop
      cases h
      exact Or.inr (Or.inl ⟨rfl, hfr⟩)
    · rcases hexp : expand p0 st.paths rest with ⟨paths1, frontier1, mc⟩
      rw [search_loop_succ_of_some expand query_num_comps mem_limit prefix_size
        estimate_heap_size gc abort_flag fuel st p0 rest paths1 frontier1 mc
        hpop hexp] at h ⊢
      by_cases h1 : (mc.isSome = true ∧ bump_comps mc st.num_comps = query_num_comps)
      · rw [if_pos h1] at h ⊢
        cases h
        exact Or.inr (Or.inr ⟨rfl, h1.2⟩)
      · rw [if_neg h1] at h ⊢
        by_cases h2 : ((st.iter_count + 1) % ITERS_BETWEEN_ABORT_CHECKS = 0 ∧
            abort_flag (st.iter_count + 1) = true)
        · rw [if_pos h2] at h
          cases h
          exact Or.inl rfl
        · rw [if_neg h2] at h ⊢
          dsimp only at h ⊢
          exact ih _ r h

/-- Claim C6: during a search, the abort flag is polled exactly on
iterations whose count is a multiple of `ITERS_BETWEEN_ABORT_CHECKS`
(10,000): an `aborted` exit implies the flag was observed true at such a
count, and a flag that is false at every such count can never lead to an
`Aborting` message or an aborted exit, whatever its value elsewhere.  If
the flag is observed true, the worker sends `Update::Aborting`, stops
expanding, and returns cleanly after one final progress update.  In the
absence of an abort, the loop ends only when the frontier is empty or when
`num_comps` compositions have been emitted. -/
theorem search_abort_spec {T Q C : Type} [LinearOrder T]
    (expand : T → Q → List T → Q × List T × Option C)
    (query_num_comps mem_limit prefix_size : Nat)
    (estimate_heap_size : Q → Nat) (gc : Q → List T → Q)
    (abort_flag : Nat → Bool) (fuel : Nat) (st : SearchState T Q) :
    ITERS_BETWEEN_ABORT_CHECKS = 10000 ∧
    ((search_loop expand query_num_comps mem_limit prefix_size
        estimate_heap_size gc abort_flag fuel st
        (C := C)).reason = some ExitReason.aborted →
      ∃ i, st.iter_count < i ∧ i % ITERS_BETWEEN_ABORT_CHECKS = 0 ∧
        abort_flag i = true) ∧
    ((∀ i, i % ITERS_BETWEEN_ABORT_CHECKS = 0 → abort_flag i = false) →
      (SearchUpdate.aborting ∉ (search_loop expand query_num_comps mem_limit
          prefix_size estimate_heap_size gc abort_flag fuel st
          (C := C)).trace ∧
        (search_loop expand query_num_comps mem_limit prefix_size
          estimate_heap_size gc abort_flag fuel st
          (C := C)).reason ≠ some ExitReason.aborted)) ∧
    ((search_loop expand query_num_comps mem_limit prefix_size
        estimate_heap_size gc abort_flag fuel st
        (C := C)).reason = some ExitReason.aborted →
      ∃ pre, search_updates expand query_num_comps mem_limit prefix_size
          estimate_heap_size gc abort_flag fuel st (C := C) =
        pre ++ [SearchUpdate.aborting,
          SearchUpdate.progress
            (search_loop expand query_num_comps mem_limit prefix_size
              estimate_heap_size gc abort_flag fuel st
              (C := C)).final.frontier.length
            (search_loop expand query_num_comps mem_limit prefix_size
              estimate_heap_size gc abort_flag fuel st
              (C := C)).final.iter_count
            (search_loop expand query_num_comps mem_limit prefix_size
              estimate_heap_size gc abort_flag fuel st
              (C := C)).final.num_comps false]) ∧
    (∀ r : ExitReason,
      (search_loop expand query_num_comps mem_limit prefix_size
        estimate_heap_size gc abort_flag fuel st
        (C := C)).reason = some r →
      (r = ExitReason.aborted ∨
       (r = ExitReason.frontierEmpty ∧
         (search_loop expand query_num_comps mem_limit prefix_size
           estimate_heap_size gc abort_flag fuel st
           (C := C)).final.frontier = []) ∨
       (r = ExitReason.enoughComps ∧
         (search_loop expand query_num_comps mem_limit prefix_size
           estimate_heap_size gc abort_flag fuel st
           (C := C)).final.num_comps = query_num_comps))) := by
  refine ⟨rfl,
    search_loop_abort_flag expand query_num_comps mem_limit prefix_size
      estimate_heap_size gc abort_flag fuel st,
    fun hflag => search_loop_no_abort expand query_num_comps mem_limit
      prefix_size estimate_heap_size gc abort_flag hflag fuel st,
    ?_,
    search_loop_exit expand query_num_comps mem_limit prefix_size
      estimate_heap_size gc abort_flag fuel st⟩
  intro h
  obtain ⟨pre, hpre⟩ := search_loop_abort_shape expand query_num_comps
    mem_limit prefix_size estimate_heap_size gc abort_flag fuel st h
  refine ⟨pre, ?_⟩
  unfold search_updates
  dsimp only
  rw [h, hpre]
  simp [List.append_assoc]

/-- Witness for `search_abort_spec`: a one-element `Nat` frontier with an
expansion that produces nothing terminates with an empty frontier. -/
theorem search_abort_spec_witness :
    ExitReason.frontierEmpty = ExitReason.aborted ∨
    (ExitReason.frontierEmpty = ExitReason.frontierEmpty ∧
      (search_loop (T := Nat) (Q := Nat) (C := Nat)
        (fun _ p f => (p, f, none)) 1 100 1 (fun _ => 0) (fun p _ => p)
        (fun _ => false) 2 ⟨[0], 0, 0, 0⟩).final.frontier = []) ∨
    (ExitReason.frontierEmpty = ExitReason.enoughComps ∧
      (search_loop (T := Nat) (Q := Nat) (C := Nat)
        (fun _ p f => (p, f, none)) 1 100 1 (fun _ => 0) (fun p _ => p)
        (fun _ => false) 2 ⟨[0], 0, 0, 0⟩).final.num_comps = 1) :=
  (search_abort_spec (T := Nat) (Q := Nat) (C := Nat)
      (fun _ p f => (p, f, none)) 1 100 1 (fun _ => 0) (fun p _ => p)
      (fun _ => false) 2 ⟨[0], 0, 0, 0⟩).2.2.2.2
    ExitReason.frontierEmpty (by decide)

/-! ### `graph/src/graph.rs` — layout → graph conversion (claim C3)

`Graph::from_layout` (graph.rs lines 362-526) explores the layout by
Dijkstra on composition length.  The `layout` module of the graph crate is
not among the provided sources, so `Layout`, `Segment` and the node-id type
are modelled from the spec: a layout gives start node ids and, per node id,
a segment (its row count, outgoing links, optional end label, display label
and per-method row counts).  `NodeId` stays an arbitrary type `N`;
`FalsenessTable::from_layout`/`are_false` (falseness.rs, not provided),
`Breakdown::from_rows` over the segment's rows, `NodeId::is_start` and
`NodeId::into_std_id` are parameters.  The Rust loop has no fuel; the model
takes fuel and simply stops early if it runs out, which only shrinks the
set of expanded nodes. -/

inductive End where
  | zeroLength
  | at_idx (idx : Nat)
deriving DecidableEq, Repr

structure GLink (N : Type) where
  id : N
  source_idx : Nat
  rotation : Nat
deriving DecidableEq, Repr

structure GNode (N S M : Type) where
  is_start : Bool
  endLabel : Option End
  label : String
  successors : List (GLink N)
  predecessors : List (GLink N)
  false_nodes : List S
  length : Nat
  method_counts : List Nat
  music : M
  required : Bool
  lb_distance_from_rounds : Nat
  lb_distance_to_rounds : Nat
deriving DecidableEq, Repr

structure GGraph (N S M : Type) where
  nodes : List (N × GNode N S M)
  start_nodes : List (N × Nat)
  end_nodes : List (N × End)
  num_parts : Nat
deriving DecidableEq, Repr

/-- Modelled from the spec: a `Segment` of the graph crate's layout module
(not among the provided sources) — the contiguous run of rows named by a
node id, its successor links, end label and method counts. -/
structure Segment (N : Type) where
  node_id : N
  length : Nat
  links : List (Nat × N)
  endLabel : Option End
  label : String
  method_counts : List Nat
deriving DecidableEq, Repr

/-- Modelled from the spec: the graph crate's `Layout` (not among the
provided sources) — start node ids plus the segment lookup. -/
structure Layout (N : Type) where
  starts : List N
  get_segment : N → Option (Segment N)

/-- Pop an element of minimal distance from the frontier (the behaviour of
`BinaryHeap<Reverse<FrontierItem<NodeId>>>::pop`). -/
def pop_min_frontier {N : Type} : List (Nat × N) →
    Option ((Nat × N) × List (Nat × N))
  | [] => none
  | x :: xs =>
    match pop_min_frontier xs with
    | none => some (x, [])
    | some (m, rest) =>
      if x.1 ≤ m.1 then some (x, xs) else some (m, x :: rest)

/-- The Dijkstra loop of `Graph::from_layout` (graph.rs lines 397-431),
with explicit fuel.  `expanded` accumulates `(node_id, (segment, distance))`
entries; `ends` accumulates `(node_id, end)` pairs.  A missing segment is
the source's `expect("Infinite segment found")` panic. -/
def dijkstra {N : Type} [DecidableEq N] (layout : Layout N) (max_length : Nat) :
    Nat → List (Nat × N) → List (N × Segment N × Nat) → List (N × End) →
    Option (List (N × Segment N × Nat) × List (N × End))
  | 0, _, expanded, ends => some (expanded, ends)
  | fuel + 1, frontier, expanded, ends =>
    match pop_min_frontier frontier with
    | none => some (expanded, ends)
    | some ((distance, node_id), rest) =>
      if (expanded.find? (fun e => e.1 = node_id)).isSome then
        dijkstra layout max_length fuel rest expanded ends
      else
        match layout.get_segment node_id with
        | none => none
        | some segment =>
          if distance + segment.length > max_length then
            dijkstra layout max_length fuel rest expanded ends
          else
            dijkstra layout max_length fuel
              (rest ++ segment.links.map
                (fun l => (distance + segment.length, l.2)))
              ((node_id, segment, distance) :: expanded)
              (match segment.endLabel with
                | some e => ends ++ [(node_id, e)]
                | none => ends)

/-- Replace the node stored under `target`, appending a predecessor link
(the body of the predecessor back-fill pass, graph.rs lines 505-517). -/
def push_pred {N S M : Type} [DecidableEq N] (nodes : List (N × GNode N S M))
    (target : N) (lnk : GLink N) : List (N × GNode N S M) :=
  nodes.map (fun p =>
    if p.1 = target then
      (p.1, { p.2 with predecessors := p.2.predecessors ++ [lnk] })
    else p)

/-- The predecessor back-fill pass: every node is a predecessor to all of
its successors.  A missing source node cannot happen (`unwrap` in the
source); the model leaves the map unchanged in that case. -/
def add_predecessors {N S M : Type} [DecidableEq N]
    (expanded : List (N × Segment N × Nat)) (nodes : List (N × GNode N S M)) :
    List (N × GNode N S M) :=
  expanded.foldl (fun nodes e =>
    match nodes.find? (fun p => p.1 = e.1) with
    | none => nodes
    | some (_, node) =>
      node.successors.foldl (fun nodes succ_link =>
        push_pred nodes succ_link.id
          ⟨e.1, succ_link.source_idx, succ_link.rotation⟩) nodes) nodes

/-- The node map built from the expanded Dijkstra entries (graph.rs lines
437-476): one `GNode` per `(node_id, (segment, distance))` entry. -/
def build_nodes1 {N S M : Type} (music_of : N → Segment N → M)
    (is_start : N → Bool) (expanded : List (N × Segment N × Nat)) :
    List (N × GNode N S M) :=
  expanded.map (fun e =>
    (e.1,
      { length := e.2.1.length
        method_counts := e.2.1.method_counts
        music := music_of e.1 e.2.1
        is_start := is_start e.1
        endLabel := e.2.1.endLabel
        label := e.2.1.label
        required := false
        lb_distance_from_rounds := e.2.2
        lb_distance_to_rounds := 0
        successors := e.2.1.links.map (fun l => ⟨l.2, l.1, 0⟩)
        false_nodes := []
        predecessors := [] }))

/-- The falseness pass over the node map (graph.rs lines 496-503). -/
def build_nodes2 {N S M : Type} (music_of : N → Segment N → M)
    (are_false : N → Nat → N → Nat → Bool) (into_std : N → Option S)
    (is_start : N → Bool) (expanded : List (N × Segment N × Nat)) :
    List (N × GNode N S M) :=
  (build_nodes1 (S := S) music_of is_start expanded).map (fun p =>
    (p.1, { p.2 with false_nodes := (((build_nodes1 (S := S) music_of is_start expanded : List (N × GNode N S M)).map (fun q => (q.1, q.2.length))).filter (fun q => are_false p.1 p.2.length q.1 q.2)).filterMap (fun q => into_std q.1) }))

/-- Embedding of `Graph::from_layout` (graph.rs lines 362-526).  `music_of`
stands for `Breakdown::from_rows(segment.untransposed_rows(layout), …)`,
`are_false` for the falseness-table query, `into_std` for
`NodeId::into_std_id` and `is_start` for `NodeId::is_start`; the
`assert_eq!(node_id, &segment.node_id)` becomes a guard. -/
def from_layout {N S M : Type} [DecidableEq N] (layout : Layout N)
    (music_of : N → Segment N → M) (are_false : N → Nat → N → Nat → Bool)
    (into_std : N → Option S) (is_start : N → Bool)
    (max_length fuel : Nat) : Option (GGraph N S M) :=
  match dijkstra layout max_length fuel
      (layout.starts.map (fun id => (0, id))) [] [] with
  | none => none
  | some (expanded, end_nodes) =>
    if expanded.all (fun e => e.2.1.node_id = e.1) then
      some
        { nodes := add_predecessors expanded
            (build_nodes2 music_of are_false into_std is_start expanded)
          start_nodes := layout.starts.enum.map (fun p => (p.2, p.1))
          end_nodes := end_nodes
          num_parts := 1 }
    else none

/-- A path from some start of the layout to a node id, measured in rows:
the distances that actual compositions can realise. -/
inductive hasPathTo {N : Type} (layout : Layout N) : N → Nat → Prop where
  | start (id : N) : id ∈ layout.starts → hasPathTo layout id 0
  | step (id : N) (d : Nat) (seg : Segment N) (idx : Nat) (id' : N) :
      hasPathTo layout id d → layout.get_segment id = some seg →
      (idx, id') ∈ seg.links → hasPathTo layout id' (d + seg.length)

/-- Helper: the element popped by `pop_min_frontier` was in the frontier. -/
theorem pop_min_frontier_mem {N : Type} :
    ∀ (l : List (Nat × N)) (m : Nat × N) (rest : List (Nat × N)),
      pop_min_frontier l = some (m, rest) → m ∈ l := by
  intro l
  induction l with
  | nil => intro m rest h; simp [pop_min_frontier] at h
  | cons x xs ih =>
    intro m rest h
    rw [pop_min_frontier] at h
    rcases hrec : pop_min_frontier xs with _ | ⟨m', rest'⟩
    · rw [hrec] at h
      dsimp only at h
      simp at h
      simp [h.1]
    · rw [hrec] at h
      dsimp only at h
      by_cases hle : x.1 ≤ m'.1
      · rw [if_pos hle] at h
        simp at h
        simp [h.1]
      · rw [if_neg hle] at h
        simp at h
        have hmem := ih m' rest' hrec
        rcases h with ⟨h1, h2⟩
        subst h1
        exact List.mem_cons_of_mem x hmem

/-- Helper: the rest returned by `pop_min_frontier` is drawn from the
frontier. -/
theorem pop_min_frontier_rest {N : Type} :
    ∀ (l : List (Nat × N)) (m : Nat × N) (rest : List (Nat × N)),
      pop_min_frontier l = some (m, rest) → ∀ x ∈ rest, x ∈ l := by
  intro l
  induction l with
  | nil => intro m rest h; simp [pop_min_frontier] at h
  | cons x xs ih =>
    intro m rest h y hy
    rw [pop_min_frontier] at h
    rcases hrec : pop_min_frontier xs with _ | ⟨m', rest'⟩
    · rw [hrec] at h
      dsimp only at h
      simp at h
      rw [h.2] at hy
      simp at hy
    · rw [hrec] at h
      dsimp only at h
      by_cases hle : x.1 ≤ m'.1
      · rw [if_pos hle] at h
        simp at h
        rcases h with ⟨h1, h2⟩
        subst h2
        exact List.mem_cons_of_mem x hy
      · rw [if_neg hle] at h
        simp at h
        rcases h with ⟨h1, h2⟩
        subst h2
        rcases List.mem_cons.mp hy with hy | hy
        · simp [hy]
        · exact List.mem_cons_of_mem x (ih m' rest' hrec y hy)

/-- Helper: Dijkstra invariant — whenever every frontier entry's distance is
realised by a path, every expanded entry keeps a realised distance, fits in
the length budget, and stores its own segment. -/
theorem dijkstra_invariant {N : Type} [DecidableEq N] (layout : Layout N)
    (max_length : Nat) :
    ∀ (fuel : Nat) (frontier : List (Nat × N))
      (expanded : List (N × Segment N × Nat)) (ends : List (N × End))
      (expanded' : List (N × Segment N × Nat)) (ends' : List (N × End)),
      (∀ p ∈ frontier, hasPathTo layout p.2 p.1) →
      (∀ e ∈ expanded, hasPathTo layout e.1 e.2.2 ∧
        e.2.2 + e.2.1.length ≤ max_length ∧
        layout.get_segment e.1 = some e.2.1) →
      dijkstra layout max_length fuel frontier expanded ends =
        some (expanded', ends') →
      (∀ e ∈ expanded', hasPathTo layout e.1 e.2.2 ∧
        e.2.2 + e.2.1.length ≤ max_length ∧
        layout.get_segment e.1 = some e.2.1) := by
  intro fuel
  induction fuel with
  | zero =>
    intro frontier expanded ends expanded' ends' hf he h
    rw [dijkstra] at h
    simp at h
    rw [← h.1]
    exact he
  | succ fuel ih =>
    intro frontier expanded ends expanded' ends' hf he h
    rw [dijkstra] at h
    rcases hpop : pop_min_frontier frontier with _ | ⟨⟨distance, node_id⟩, rest⟩
    · rw [hpop] at h
      simp at h
      rw [← h.1]
      exact he
    · rw [hpop] at h
      dsimp only at h
      have hrest : ∀ p ∈ rest, hasPathTo layout p.2 p.1 :=
        fun p hp => hf p (pop_min_frontier_rest frontier _ rest hpop p hp)
      have hpopped : hasPathTo layout node_id distance :=
        hf (distance, node_id) (pop_min_frontier_mem frontier _ rest hpop)
      by_cases hseen : (expanded.find? (fun e => e.1 = node_id)).isSome
      · rw [if_pos hseen] at h
        exact ih rest expanded ends expanded' ends' hrest he h
      · rw [if_neg hseen] at h
        rcases hseg : layout.get_segment node_id with _ | segment
        · rw [hseg] at h
          simp at h
        · rw [hseg] at h
          dsimp only at h
          by_cases hlen : distance + segment.length > max_length
          · rw [if_pos hlen] at h
            exact ih rest expanded ends expanded' ends' hrest he h
          · rw [if_neg hlen] at h
            refine ih _ _ _ expanded' ends' ?_ ?_ h
            · intro p hp
              rcases List.mem_append.mp hp with hp | hp
              · exact hrest p hp
              · obtain ⟨l, hl, hpl⟩ := List.mem_map.mp hp
                rw [← hpl]
                exact hasPathTo.step node_id distance segment l.1 l.2
                  hpopped hseg (by simpa using hl)
            · intro e hee
              rcases List.mem_cons.mp hee with hee | hee
              · rw [hee]
                refine ⟨hpopped, ?_, hseg⟩
                dsimp only
                omega
              · exact he e hee

/-- Helper: `push_pred` changes only the `predecessors` field of nodes. -/
theorem mem_push_pred {N S M : Type} [DecidableEq N]
    (nodes : List (N × GNode N S M)) (target : N) (lnk : GLink N) :
    ∀ p ∈ push_pred nodes target lnk, ∃ q ∈ nodes, p.1 = q.1 ∧
      p.2.length = q.2.length ∧
      p.2.lb_distance_from_rounds = q.2.lb_distance_from_rounds := by
  intro p hp
  obtain ⟨q, hq, hpq⟩ := List.mem_map.mp hp
  by_cases h : q.1 = target
  · rw [if_pos h] at hpq
    exact ⟨q, hq, by rw [← hpq], by rw [← hpq], by rw [← hpq]⟩
  · rw [if_neg h] at hpq
    exact ⟨q, hq, by rw [← hpq], by rw [← hpq], by rw [← hpq]⟩

/-- Helper: a fold of `push_pred`s over the successors changes only
`predecessors` fields. -/
theorem mem_foldl_push_pred {N S M : Type} [DecidableEq N] (src : N) :
    ∀ (succs : List (GLink N)) (nodes : List (N × GNode N S M)) (p),
      p ∈ succs.foldl (fun nodes succ_link =>
        push_pred nodes succ_link.id
          ⟨src, succ_link.source_idx, succ_link.rotation⟩) nodes →
      ∃ q ∈ nodes, p.1 = q.1 ∧ p.2.length = q.2.length ∧
        p.2.lb_distance_from_rounds = q.2.lb_distance_from_rounds := by
  intro succs
  induction succs with
  | nil => exact fun nodes p hp => ⟨p, hp, rfl, rfl, rfl⟩
  | cons s ss ih =>
    intro nodes p hp
    obtain ⟨q, hq, hq1, hq2, hq3⟩ := ih _ p hp
    obtain ⟨q', hq', hq1', hq2', hq3'⟩ := mem_push_pred nodes s.id
      ⟨src, s.source_idx, s.rotation⟩ q hq
    exact ⟨q', hq', by rw [hq1, hq1'], by rw [hq2, hq2'], by rw [hq3, hq3']⟩

/-- Helper: the predecessor back-fill pass changes only `predecessors`
fields. -/
theorem mem_add_predecessors {N S M : Type} [DecidableEq N] :
    ∀ (expanded : List (N × Segment N × Nat))
      (nodes : List (N × GNode N S M)) (p),
      p ∈ add_predecessors expanded nodes →
      ∃ q ∈ nodes, p.1 = q.1 ∧ p.2.length = q.2.length ∧
        p.2.lb_distance_from_rounds = q.2.lb_distance_from_rounds := by
  intro expanded
  induction expanded with
  | nil => exact fun nodes p hp => ⟨p, hp, rfl, rfl, rfl⟩
  | cons e es ih =>
    intro nodes p hp
    rw [add_predecessors] at hp
    rw [List.foldl_cons] at hp
    rcases hfind : nodes.find? (fun q => q.1 = e.1) with _ | found
    · rw [hfind] at hp
      exact ih nodes p hp
    · rw [hfind] at hp
      dsimp only at hp
      obtain ⟨q, hq, hq1, hq2, hq3⟩ := ih _ p hp
      obtain ⟨q', hq', hq1', hq2', hq3'⟩ := mem_foldl_push_pred e.1 _ nodes q hq
      exact ⟨q', hq', by rw [hq1, hq1'], by rw [hq2, hq2'], by rw [hq3, hq3']⟩

/-- Claim C3: every node in the graph returned by `Graph::from_layout`
satisfies `lb_distance_from_rounds + length ≤ max_length`, and its stored
distance is realised by an actual path from a start; consequently a chunk
whose shortest distance from rounds plus its own length exceeds the
maximum length is never expanded and never appears in the returned
graph. -/
theorem from_layout_length_bound {N S M : Type} [DecidableEq N]
    (layout : Layout N) (music_of : N → Segment N → M)
    (are_false : N → Nat → N → Nat → Bool) (into_std : N → Option S)
    (is_start : N → Bool) (max_length fuel : Nat) (g : GGraph N S M)
    (hg : from_layout layout music_of are_false into_std is_start
      max_length fuel = some g) :
    ∀ id node, (id, node) ∈ g.nodes →
      node.lb_distance_from_rounds + node.length ≤ max_length ∧
      ∃ d, hasPathTo layout id d ∧ d + node.length ≤ max_length ∧
        node.lb_distance_from_rounds = d := by
  intro id node hmem
  rw [from_layout] at hg
  rcases hdij : dijkstra layout max_length fuel
      (layout.starts.map (fun id => (0, id))) [] [] with _ | ⟨expanded, ends⟩
  · rw [hdij] at hg
    simp at hg
  · rw [hdij] at hg
    dsimp only at hg
    by_cases hall : expanded.all (fun e => e.2.1.node_id = e.1)
    · rw [if_pos hall] at hg
      have hginv := dijkstra_invariant layout max_length fuel
        (layout.starts.map (fun id => (0, id))) [] [] expanded ends
        (by
          intro p hp
          obtain ⟨sid, hsid, hps⟩ := List.mem_map.mp hp
          rw [← hps]
          exact hasPathTo.start sid hsid)
        (by intro e he; simp at he)
        hdij
      have hnodes : g.nodes = add_predecessors expanded
          (build_nodes2 music_of are_false into_std is_start expanded) := by
        cases hg
        rfl
      rw [hnodes] at hmem
      obtain ⟨q, hq, hq1, hq2, hq3⟩ := mem_add_predecessors expanded _ _ hmem
      rw [build_nodes2] at hq
      obtain ⟨q', hq', hqq'⟩ := List.mem_map.mp hq
      rw [build_nodes1] at hq'
      obtain ⟨e, he, heq'⟩ := List.mem_map.mp hq'
      obtain ⟨hpath, hbound, hseg⟩ := hginv e he
      have hq1' : id = q.1 := by simpa using hq1
      have hq2' : node.length = q.2.length := by simpa using hq2
      have hq3' : node.lb_distance_from_rounds = q.2.lb_distance_from_rounds := by
        simpa using hq3
      have ha : q.1 = e.1 := by rw [← hqq', ← heq']
      have hb : q.2.length = e.2.1.length := by rw [← hqq', ← heq']
      have hc : q.2.lb_distance_from_rounds = e.2.2 := by rw [← hqq', ← heq']
      have hid : id = e.1 := hq1'.trans ha
      have hlen : node.length = e.2.1.length := hq2'.trans hb
      have hlb : node.lb_distance_from_rounds = e.2.2 := hq3'.trans hc
      subst hid
      refine ⟨by omega, e.2.2, hpath, by omega, hlb⟩
    · rw [if_neg hall] at hg
      simp at hg

/-- Witness for `from_layout_length_bound`: a two-node layout (a start node
`0` of length 2 linking to node `1` of length 3) against `max_length = 5`;
node `1` sits at distance 2 with length 3, within the budget. -/
theorem from_layout_length_bound_witness :
    ∃ g, from_layout
      (⟨[0], fun n =>
        if n = 0 then some ⟨0, 2, [(0, 1)], none, "a", [2]⟩
        else if n = 1 then some ⟨1, 3, [], some End.zeroLength, "b", [3]⟩
        else none⟩ : Layout Nat)
      (fun _ _ => (0 : Nat)) (fun _ _ _ _ => false) (fun n => some n)
      (fun n => n = 0) 5 10 = some g ∧
    ∀ id node, (id, node) ∈ g.nodes →
      node.lb_distance_from_rounds + node.length ≤ 5 := by
  have hsome : (from_layout
      (⟨[0], fun n =>
        if n = 0 then some ⟨0, 2, [(0, 1)], none, "a", [2]⟩
        else if n = 1 then some ⟨1, 3, [], some End.zeroLength, "b", [3]⟩
        else none⟩ : Layout Nat)
      (fun _ _ => (0 : Nat)) (fun _ _ _ _ => false) (fun n => some n)
      (fun n => n = 0) 5 10).isSome = true := by decide
  obtain ⟨g, hg⟩ := Option.isSome_iff_exists.mp hsome
  exact ⟨g, hg, fun id node hmem =>
    (from_layout_length_bound _ _ _ _ _ 5 10 g hg id node hmem).1⟩

/-! ### `graph/src/graph.rs` — multi-part conversion (claim C4)

`Graph::to_multipart` (graph.rs lines 532-858).  The node-id type of the
layout crate is not among the provided sources; it is modelled from the
spec as either a standard id (course head row, remaining row-index data
`A`, start flag) or the zero-length-end sentinel.  Rows only need
multiplication and an identity here, so the row type is any `Mul`/`One`
type `R`; `closure_from_rounds` (bellframe, not provided) is modelled by
passing the closure `part_heads` as a list.  Music stays an abstract type
`M` with a zero `zM` and addition `aM` (standing for `Breakdown::zero` and
`+=`).  `RowCounts * usize` multiplies each per-method count.  The Rust
`HashMap`s are modelled as association lists with overwriting insert;
iteration order is the list order, a fixed representative of the arbitrary
`HashMap` order. -/

structure StdId (R A : Type) where
  course_head : R
  row_idx : A
  is_start : Bool
deriving DecidableEq, Repr

inductive MNodeId (R A : Type) where
  | standard (sid : StdId R A)
  | zeroLengthEnd
deriving DecidableEq, Repr

/-- Modelled from the spec: pre-multiplying a node id by a part head
multiplies its course-head row on the left. -/
def MNodeId.pre_multiply {R A : Type} [Mul R] : MNodeId R A → R → MNodeId R A
  | MNodeId.standard sid, ph =>
    MNodeId.standard ⟨ph * sid.course_head, sid.row_idx, sid.is_start⟩
  | MNodeId.zeroLengthEnd, _ => MNodeId.zeroLengthEnd

/-- Modelled from the spec: `NodeId::set_start`. -/
def MNodeId.set_start {R A : Type} : MNodeId R A → Bool → MNodeId R A
  | MNodeId.standard sid, b => MNodeId.standard { sid with is_start := b }
  | MNodeId.zeroLengthEnd, _ => MNodeId.zeroLengthEnd

def MNodeId.is_standard {R A : Type} : MNodeId R A → Bool
  | MNodeId.standard _ => true
  | MNodeId.zeroLengthEnd => false

def MNodeId.std_id {R A : Type} : MNodeId R A → Option (StdId R A)
  | MNodeId.standard sid => some sid
  | MNodeId.zeroLengthEnd => none

inductive EquivTag where
  | std
  | partHead
deriving DecidableEq, Repr

structure EquivM (R A : Type) where
  tag : EquivTag
  id : MNodeId R A
  rot : Nat
deriving DecidableEq, Repr

/-- Overwriting insert into a modelled `HashMap`. -/
def al_insert {K V : Type} [DecidableEq K] (k : K) (v : V)
    (m : List (K × V)) : List (K × V) :=
  (k, v) :: m.filter (fun p => p.1 ≠ k)

def al_lookup {K V : Type} [DecidableEq K] (m : List (K × V)) (k : K) :
    Option V :=
  (m.find? (fun p => p.1 = k)).map Prod.snd

def al_contains {K V : Type} [DecidableEq K] (m : List (K × V)) (k : K) :
    Bool :=
  (m.find? (fun p => p.1 = k)).isSome

/-- `entry(k).or_insert(vec![]).push(v)` on a modelled
`HashMap<K, Vec<V>>`. -/
def al_push {K V : Type} [DecidableEq K] (m : List (K × List V)) (k : K)
    (v : V) : List (K × List V) :=
  match al_lookup m k with
  | some vs => al_insert k (vs ++ [v]) m
  | none => al_insert k [v] m

/-- Embedding of `Graph::class_by_id` (graph.rs lines 568-630) before the
final `filter_map`: start nodes first, then non-zero-length ends (mapped to
`None`), the zero-length-end class, then all remaining node ids. -/
def class_by_id {R A M : Type} [Mul R] [DecidableEq R] [DecidableEq A]
    (g : GGraph (MNodeId R A) (StdId R A) M) (part_heads : List R) :
    List (MNodeId R A × Option (EquivM R A)) :=
  let m1 := g.start_nodes.foldl (fun m p =>
    part_heads.enum.foldl (fun m rp =>
      if rp.1 ≠ 0 then
        al_insert ((p.1.pre_multiply rp.2).set_start false)
          (some ⟨EquivTag.partHead, p.1, rp.1⟩) m
      else
        al_insert (p.1.pre_multiply rp.2) (some ⟨EquivTag.std, p.1, rp.1⟩) m)
      m) []
  let m2 := g.end_nodes.foldl (fun m p =>
    if p.2 ≠ End.zeroLength then
      part_heads.foldl (fun m ph => al_insert (p.1.pre_multiply ph) none m) m
    else m) m1
  let m3 := al_insert MNodeId.zeroLengthEnd
    (some ⟨EquivTag.std, MNodeId.zeroLengthEnd, 0⟩) m2
  (g.nodes.map Prod.fst).foldl (fun m id =>
    if al_contains m id then m
    else part_heads.enum.foldl (fun m rp =>
      al_insert (id.pre_multiply rp.2) (some ⟨EquivTag.std, id, rp.1⟩) m) m)
    m3

/-- The `filter_map` at the end of `class_by_id` (graph.rs lines 626-629). -/
def class_by_id_filtered {R A M : Type} [Mul R] [DecidableEq R]
    [DecidableEq A] (g : GGraph (MNodeId R A) (StdId R A) M)
    (part_heads : List R) : List (MNodeId R A × EquivM R A) :=
  (class_by_id g part_heads).filterMap
    (fun p => p.2.map (fun v => (p.1, v)))

/-- Embedding of the inversion of `class_by_id` into equivalence classes
(graph.rs lines 544-557). -/
def equiv_classes {R A M : Type} [Mul R] [DecidableEq R] [DecidableEq A]
    (g : GGraph (MNodeId R A) (StdId R A) M) (part_heads : List R) :
    List (MNodeId R A × List (EquivM R A)) :=
  (class_by_id_filtered g part_heads).foldl (fun m p =>
    al_push m p.2.id ⟨p.2.tag, p.1, p.2.rot⟩) []

inductive LinkDirection where
  | succ
  | pred
deriving DecidableEq, Repr

/-- Embedding of `combine_links` (graph.rs lines 742-776). -/
def combine_links {R A M : Type} [DecidableEq R] [DecidableEq A]
    (zero_rot_node : GNode (MNodeId R A) (StdId R A) M)
    (direction : LinkDirection)
    (cbi : List (MNodeId R A × EquivM R A)) : List (GLink (MNodeId R A)) :=
  let zero_rot_links := match direction with
    | LinkDirection.pred => zero_rot_node.predecessors
    | LinkDirection.succ => zero_rot_node.successors
  let new_links := zero_rot_links.filterMap (fun link =>
    match al_lookup cbi link.id with
    | none => none
    | some equiv =>
      match equiv.tag, direction with
      | EquivTag.partHead, LinkDirection.pred => none
      | EquivTag.partHead, LinkDirection.succ =>
        some ⟨MNodeId.zeroLengthEnd, link.source_idx, equiv.rot⟩
      | EquivTag.std, _ => some ⟨equiv.id, link.source_idx, equiv.rot⟩)
  if direction = LinkDirection.pred then
    new_links.filter (fun l => l.id.is_standard)
  else new_links

/-- Embedding of `combine_falseness` (graph.rs lines 778-795). -/
def combine_falseness {R A M : Type} [DecidableEq R] [DecidableEq A]
    (zero_rot_node : GNode (MNodeId R A) (StdId R A) M)
    (cbi : List (MNodeId R A × EquivM R A)) : List (StdId R A) :=
  zero_rot_node.false_nodes.filterMap (fun sid =>
    match al_lookup cbi (MNodeId.standard sid) with
    | none => none
    | some equiv => equiv.id.std_id)

/-- Embedding of `all_eq` (graph.rs lines 815-818) on an explicit list of
values. -/
def all_eq_list {E : Type} [DecidableEq E] : List E → Bool
  | [] => true
  | [_] => true
  | x :: y :: rest => x = y && all_eq_list (y :: rest)

/-- Option-propagating map over a list (each `?`/panic in the mapped
function aborts the construction). -/
def map_option {α β : Type} (f : α → Option β) : List α → Option (List β)
  | [] => some []
  | x :: xs =>
    match f x, map_option f xs with
    | some y, some ys => some (y :: ys)
    | _, _ => none

/-- The source nodes of an equivalence class that are actually present in
the source graph (graph.rs lines 688-691). -/
def source_nodes_of {R A M : Type} [Mul R] [DecidableEq R] [DecidableEq A]
    (g : GGraph (MNodeId R A) (StdId R A) M)
    (source_ids : List (EquivM R A)) :
    List (GNode (MNodeId R A) (StdId R A) M × EquivM R A) :=
  source_ids.filterMap (fun equiv =>
    (al_lookup g.nodes equiv.id).map (fun node => (node, equiv)))

/-- Embedding of `Graph::equiv_node` (graph.rs lines 680-738).  The
`expect`/`assert!` sites become `Option` guards. -/
def equiv_node {R A M : Type} [Mul R] [DecidableEq R] [DecidableEq A]
    (g : GGraph (MNodeId R A) (StdId R A) M) (zM : M) (aM : M → M → M)
    (equiv_id : MNodeId R A) (source_ids : List (EquivM R A))
    (cbi : List (MNodeId R A × EquivM R A)) :
    Option (MNodeId R A × GNode (MNodeId R A) (StdId R A) M) :=
  let source_nodes := source_nodes_of g source_ids
  match source_nodes.find? (fun p => p.2.rot = 0) with
  | none => none
  | some zr =>
    let is_std := equiv_id.is_standard
    if is_std ≠ zr.2.id.is_standard then none
    else if ¬ (all_eq_list (source_nodes.map
        (fun p => p.1.is_start || p.2.tag = EquivTag.partHead)) = true) then none
    else if is_std ∧ ¬ ((all_eq_list (source_nodes.map (fun p => p.1.length)) = true) ∧
        (all_eq_list (source_nodes.map (fun p => p.1.label)) = true) ∧
        (all_eq_list (source_nodes.map (fun p => p.1.method_counts)) = true)) then none
    else some (equiv_id,
      { is_start := zr.1.is_start
        endLabel := zr.1.endLabel
        label := zr.1.label
        successors := combine_links zr.1 LinkDirection.succ cbi
        predecessors := combine_links zr.1 LinkDirection.pred cbi
        false_nodes := combine_falseness zr.1 cbi
        length := zr.1.length * source_nodes.length
        method_counts := zr.1.method_counts.map (fun c => c * source_nodes.length)
        music := if is_std then
            source_nodes.foldl (fun t p => aM t p.1.music) zM
          else zM
        required := source_nodes.any (fun p => p.1.required)
        lb_distance_from_rounds :=
          ((source_nodes.map (fun p => p.1.lb_distance_from_rounds)).min?).getD 0
        lb_distance_to_rounds := if is_std then
            ((source_nodes.map (fun p => p.1.lb_distance_to_rounds)).min?).getD 0
          else 0 })

/-- Embedding of `Graph::build_multipart` (graph.rs lines 633-678).  The
class-size assertion and the start-rotation assertion become guards. -/
def build_multipart {R A M : Type} [Mul R] [DecidableEq R] [DecidableEq A]
    (g : GGraph (MNodeId R A) (StdId R A) M) (part_heads : List R)
    (cbi : List (MNodeId R A × EquivM R A))
    (eqcls : List (MNodeId R A × List (EquivM R A)))
    (zM : M) (aM : M → M → M) :
    Option (GGraph (MNodeId R A) (StdId R A) M) :=
  if ¬ (eqcls.all (fun p => !p.1.is_standard ||
      p.2.length = part_heads.length) = true) then none
  else
    match map_option (fun p => equiv_node g zM aM p.1 p.2 cbi) eqcls with
    | none => none
    | some nodes =>
      if ¬ (g.start_nodes.all (fun p =>
          match al_lookup cbi p.1 with
          | some equiv => equiv.rot = 0
          | none => true) = true) then none
      else
        some
          { nodes := nodes
            start_nodes := g.start_nodes.filterMap (fun p =>
              (al_lookup cbi p.1).map (fun equiv => (equiv.id, p.2)))
            end_nodes := nodes.filterMap (fun p =>
              p.2.endLabel.map (fun e => (p.1, e)))
            num_parts := part_heads.length }

/-- Embedding of `Graph::to_multipart` (graph.rs lines 533-563).
`part_heads` stands for `data.part_head.closure_from_rounds()`
(bellframe, not among the provided sources); `part_head.is_rounds()` is
`part_head = 1`. -/
def to_multipart {R A M : Type} [Mul R] [One R] [DecidableEq R]
    [DecidableEq A] (g : GGraph (MNodeId R A) (StdId R A) M)
    (part_head : R) (part_heads : List R) (zM : M) (aM : M → M → M) :
    Option (GGraph (MNodeId R A) (StdId R A) M) :=
  if g.num_parts ≠ 1 then none
  else if part_head = 1 then some g
  else
    build_multipart g part_heads (class_by_id_filtered g part_heads)
      (equiv_classes g part_heads) zM aM

/-- Counterexample to claim C4 as stated: a single-part graph containing
the standard node with course head `1` (length 3) but *not* its part-head
image (course head `2`), converted with the non-identity part head `2` in
`ZMod 3` (closure `{1, 2}`, so `P = 2`).  The equivalence class of the
node has exactly `P = 2` members, but only one of them exists in the
graph, so the merged node's length is `3 * 1 = 3`, not
`P * 3 = 6` as the claim states. -/
theorem to_multipart_counterexample :
    ((to_multipart
        (⟨[(MNodeId.standard ⟨1, (), false⟩,
             ⟨false, none, "x", [], [], [], 3, [3], 0, false, 0, 0⟩),
           (MNodeId.zeroLengthEnd,
             ⟨false, some End.zeroLength, "z", [], [], [], 0, [], 0, false, 0, 0⟩)],
          [], [(MNodeId.zeroLengthEnd, End.zeroLength)], 1⟩ :
          GGraph (MNodeId (ZMod 3) Unit) (StdId (ZMod 3) Unit) Nat)
        2 [1, 2] 0 (fun a b => a + b)).map (fun g' =>
      (g'.nodes.find? (fun p => p.1 = MNodeId.standard ⟨1, (), false⟩)).map
        (fun p => p.2.length))) = some (some 3) ∧
    (3 : Nat) ≠ 2 * 3 :=
  ⟨by decide, by decide⟩

/-- Helper: members of a successful `map_option` come from members of the
input list. -/
theorem mem_map_option {α β : Type} (f : α → Option β) :
    ∀ (l : List α) (ys : List β), map_option f l = some ys →
      ∀ y ∈ ys, ∃ x ∈ l, f x = some y := by
  intro l
  induction l with
  | nil =>
    intro ys h y hy
    rw [map_option] at h
    simp at h
    rw [h] at hy
    simp at hy
  | cons x xs ih =>
    intro ys h y hy
    rw [map_option] at h
    rcases hfx : f x with _ | y0
    · rw [hfx] at h
      simp at h
    · rw [hfx] at h
      rcases hrec : map_option f xs with _ | ys0
      · rw [hrec] at h
        simp at h
      · rw [hrec] at h
        dsimp only at h
        have hys : y0 :: ys0 = ys := by simpa using h
        rw [← hys] at hy
        rcases List.mem_cons.mp hy with hy | hy
        · exact ⟨x, List.mem_cons_self x xs, by rw [hfx, hy]⟩
        · obtain ⟨x', hx', hfx'⟩ := ih ys0 hrec y hy
          exact ⟨x', List.mem_cons_of_mem x hx', hfx'⟩

/-- Claim C4 (amended): when `Graph::to_multipart` succeeds with a
non-identity part head whose closure has `P` elements, every equivalence
class whose representative is a standard node id has exactly `P` members
(the source's assertion); every node of the multi-part graph is the merge
of one equivalence class; and each merged node's length is its rotation-0
source node's length times the number of class members *present in the
source graph* (not necessarily `P`), its `required` flag is the OR of the
present members' flags and its `lb_distance_from_rounds` is the minimum of
the present members' distances. -/
theorem to_multipart_merge_spec {R A M : Type} [Mul R] [One R]
    [DecidableEq R] [DecidableEq A]
    (g : GGraph (MNodeId R A) (StdId R A) M) (part_head : R)
    (part_heads : List R) (zM : M) (aM : M → M → M)
    (g' : GGraph (MNodeId R A) (StdId R A) M) (hph : part_head ≠ 1)
    (h : to_multipart g part_head part_heads zM aM = some g') :
    (∀ p ∈ equiv_classes g part_heads, p.1.is_standard = true →
      p.2.length = part_heads.length) ∧
    (∀ id node, (id, node) ∈ g'.nodes →
      ∃ cls ∈ equiv_classes g part_heads,
        equiv_node g zM aM cls.1 cls.2 (class_by_id_filtered g part_heads) =
          some (id, node)) ∧
    (∀ equiv_id source_ids id node,
      equiv_node g zM aM equiv_id source_ids
        (class_by_id_filtered g part_heads) = some (id, node) →
      id = equiv_id ∧
      ∃ zr, (source_nodes_of g source_ids).find? (fun p => p.2.rot = 0) =
          some zr ∧
        node.length = zr.1.length * (source_nodes_of g source_ids).length ∧
        node.required = (source_nodes_of g source_ids).any
          (fun p => p.1.required) ∧
        node.lb_distance_from_rounds =
          (((source_nodes_of g source_ids).map
            (fun p => p.1.lb_distance_from_rounds)).min?).getD 0) := by
  rw [to_multipart] at h
  by_cases hnp : g.num_parts ≠ 1
  · rw [if_pos hnp] at h
    simp at h
  · rw [if_neg hnp, if_neg hph] at h
    rw [build_multipart] at h
    by_cases hall : ¬ ((equiv_classes g part_heads).all (fun p =>
        !p.1.is_standard || p.2.length = part_heads.length) = true)
    · rw [if_pos hall] at h
      simp at h
    · rw [if_neg hall] at h
      push_neg at hall
      refine ⟨?_, ?_, ?_⟩
      · intro p hp hstd
        have h1 := List.all_eq_true.mp hall p hp
        rw [hstd] at h1
        simpa using h1
      · rcases hmap : map_option (fun p => equiv_node g zM aM p.1 p.2
            (class_by_id_filtered g part_heads)) (equiv_classes g part_heads)
          with _ | nodes
        · rw [hmap] at h
          simp at h
        · rw [hmap] at h
          dsimp only at h
          by_cases hstart : ¬ (g.start_nodes.all (fun p =>
              match al_lookup (class_by_id_filtered g part_heads) p.1 with
              | some equiv => equiv.rot = 0
              | none => true) = true)
          · rw [if_pos hstart] at h
            simp at h
          · rw [if_neg hstart] at h
            have hg : g'.nodes = nodes := by
              cases h
              rfl
            intro id node hmem
            rw [hg] at hmem
            obtain ⟨cls, hcls, hcls2⟩ := mem_map_option _ _ nodes hmap
              (id, node) hmem
            exact ⟨cls, hcls, hcls2⟩
      · intro equiv_id source_ids id node h2
        rw [equiv_node] at h2
        rcases hfind : (source_nodes_of g source_ids).find?
            (fun p => p.2.rot = 0) with _ | zr
        · rw [hfind] at h2
          simp at h2
        · rw [hfind] at h2
          dsimp only at h2
          by_cases hc1 : equiv_id.is_standard ≠ zr.2.id.is_standard
          · rw [if_pos hc1] at h2
            simp at h2
          · rw [if_neg hc1] at h2
            by_cases hc2 : ¬ (all_eq_list ((source_nodes_of g source_ids).map
                (fun p => p.1.is_start || p.2.tag = EquivTag.partHead)) = true)
            · rw [if_pos hc2] at h2
              simp at h2
            · rw [if_neg hc2] at h2
              by_cases hc3 : equiv_id.is_standard = true ∧
                  ¬ ((all_eq_list ((source_nodes_of g source_ids).map
                      (fun p => p.1.length)) = true) ∧
                    (all_eq_list ((source_nodes_of g source_ids).map
                      (fun p => p.1.label)) = true) ∧
                    (all_eq_list ((source_nodes_of g source_ids).map
                      (fun p => p.1.method_counts)) = true))
              · rw [if_pos hc3] at h2
                simp at h2
              · rw [if_neg hc3] at h2
                have hpair := Option.some.inj h2
                have hid : equiv_id = id := congrArg Prod.fst hpair
                have hnode := congrArg Prod.snd hpair
                dsimp only at hnode
                refine ⟨hid.symm, zr, hfind, ?_, ?_, ?_⟩
                · rw [← hnode]
                · rw [← hnode]
                · rw [← hnode]

/-- Witness for `to_multipart_merge_spec` at the two-node `ZMod 3` graph:
the equivalence class of the standard node with course head `1` has
exactly `P = 2` members. -/
theorem to_multipart_merge_spec_witness :
    ([⟨EquivTag.std, MNodeId.standard ⟨2, (), false⟩, 1⟩,
      ⟨EquivTag.std, MNodeId.standard ⟨1, (), false⟩, 0⟩] :
      List (EquivM (ZMod 3) Unit)).length = 2 := by
  have hsome : (to_multipart
      (⟨[(MNodeId.standard ⟨1, (), false⟩,
           ⟨false, none, "x", [], [], [], 3, [3], 0, false, 0, 0⟩),
         (MNodeId.zeroLengthEnd,
           ⟨false, some End.zeroLength, "z", [], [], [], 0, [], 0, false, 0, 0⟩)],
        [], [(MNodeId.zeroLengthEnd, End.zeroLength)], 1⟩ :
        GGraph (MNodeId (ZMod 3) Unit) (StdId (ZMod 3) Unit) Nat)
      2 [1, 2] 0 (fun a b => a + b)).isSome = true := by decide
  obtain ⟨g', hg'⟩ := Option.isSome_iff_exists.mp hsome
  exact (to_multipart_merge_spec _ 2 [1, 2] 0 (fun a b => a + b) g'
      (by decide) hg').1
    (MNodeId.standard ⟨1, (), false⟩,
      [⟨EquivTag.std, MNodeId.standard ⟨2, (), false⟩, 1⟩,
       ⟨EquivTag.std, MNodeId.standard ⟨1, (), false⟩, 0⟩])
    (by decide) (by decide)

/-! ## Claim C5: `Composition::rows` (composition.rs lines 147-199)

The bellframe `Block` type (block.rs, not among the sources) is modelled
from the spec as a list of rows plus a leftover row.  `extend_range`
appends a range of a source block, transposed so that the first appended
row equals the current leftover row; the new leftover row is the
transposed row one past the end of the range (the source's leftover row
when the range runs to its end).  Rows form a group `R`; panicking
operations (asserts, `expect`, indexing, `unwrap`) return `none`. -/

/-- Modelled from the spec: a bellframe `Block` is a list of rows plus a
leftover row. -/
structure BlockM (R : Type) where
  row_list : List R
  leftover : R
  deriving DecidableEq

/-- Modelled from the spec: `Block::with_leftover_row` makes an empty
block with the given leftover row. -/
def BlockM.with_leftover_row {R : Type} (r : R) : BlockM R := ⟨[], r⟩

/-- Modelled from the spec: `Block::len`, the number of non-leftover rows. -/
def BlockM.len {R : Type} (b : BlockM R) : Nat := b.row_list.length

/-- Modelled from the spec: indexing a block, where index `len` yields the
leftover row and larger indices are out of range. -/
def BlockM.get_row {R : Type} (b : BlockM R) (i : Nat) : Option R :=
  if h : i < b.row_list.length then some (b.row_list.get ⟨i, h⟩)
  else if i = b.row_list.length then some b.leftover
  else none

/-- Modelled from the spec: `Block::extend_range b src start stop` appends
the rows of `src` at indices `start ≤ i < stop`, transposed so that the
first appended row equals `b`'s leftover row, and sets the leftover row
to the transposed row of `src` at index `stop`. -/
def BlockM.extend_range {R : Type} [Group R] (b src : BlockM R)
    (start stop : Nat) : Option (BlockM R) :=
  match src.get_row start, src.get_row stop with
  | some r0, some re =>
    if start ≤ stop then
      some ⟨b.row_list ++ (List.range (stop - start)).map
          (fun j => b.leftover * r0⁻¹ * ((src.get_row (start + j)).getD r0)),
        b.leftover * r0⁻¹ * re⟩
    else none
  | _, _ => none

/-- Modelled from the spec: `Block::extend_from_within (..stop)` extends a
block with a transposed copy of its own rows at indices `0 ≤ i < stop`. -/
def BlockM.extend_from_within {R : Type} [Group R] (b : BlockM R)
    (stop : Nat) : Option (BlockM R) :=
  b.extend_range b 0 stop

/-- One element of a composition's `path` (composition.rs `PathElem`):
the row at which the element starts, the method index, the sub-lead index
at which it starts, its length, and the optional index of the call at its
end. -/
structure PathElemM (R : Type) where
  start_row : R
  method : Nat
  start_sub_lead_idx : Nat
  length : Nat
  call_to_end : Option Nat
  deriving DecidableEq

/-- The parts of the search query that `Composition::rows` reads: the
plain course of each method, the transposition of each call, the start
and end rows, and the number of parts. -/
structure QueryM (R : Type) where
  methods : List (BlockM R)
  calls : List R
  start_row : R
  end_row : R
  num_parts : Nat

/-- A composition as consumed by `Composition::rows`: its query, its path
and its total length. -/
structure CompositionM (R : Type) where
  query : QueryM R
  path : List (PathElemM R)
  length : Nat

/-- The body of the per-element loop of `Composition::rows`
(composition.rs lines 158-188): assert that the block built so far leaves
off at `elem.start_row`, extend it by the element's range of the plain
course (in two pieces when the range wraps over the course head), then
apply the element's call (if any) by replacing the leftover row with the
last row times the call's transposition. -/
def rows_elem_step {R : Type} [Group R] [DecidableEq R] (q : QueryM R)
    (b : BlockM R) (elem : PathElemM R) : Option (BlockM R) :=
  if b.leftover = elem.start_row then
    match q.methods[elem.method]? with
    | some plain_course =>
      match (if plain_course.len < elem.start_sub_lead_idx + elem.length then
          (b.extend_range plain_course elem.start_sub_lead_idx
              plain_course.len).bind
            (fun bw => bw.extend_range plain_course 0
              (elem.start_sub_lead_idx + elem.length - plain_course.len))
        else
          b.extend_range plain_course elem.start_sub_lead_idx
            (elem.start_sub_lead_idx + elem.length)) with
      | some b1 =>
        match elem.call_to_end with
        | none => some b1
        | some call_idx =>
          match b1.row_list.getLast?, q.calls[call_idx]? with
          | some last_row, some transposition =>
            some ⟨b1.row_list, last_row * transposition⟩
          | _, _ => none
      | none => none
    | none => none
  else none

/-- The first-part loop of `Composition::rows` (composition.rs lines
157-188), folding `rows_elem_step` over the path. -/
def build_first_part {R : Type} [Group R] [DecidableEq R] (q : QueryM R) :
    BlockM R → List (PathElemM R) → Option (BlockM R)
  | b, [] => some b
  | b, elem :: rest =>
    match rows_elem_step q b elem with
    | some b1 => build_first_part q b1 rest
    | none => none

/-- The multi-part loop of `Composition::rows` (composition.rs lines
191-195): `num_parts - 1` times, extend the block with a transposed copy
of its first `part_len` rows. -/
def extend_parts {R : Type} [Group R] (part_len : Nat) :
    Nat → BlockM R → Option (BlockM R)
  | 0, b => some b
  | n + 1, b =>
    match b.extend_from_within part_len with
    | some b1 => extend_parts part_len n b1
    | none => none

/-- Embedding of `Composition::rows` (composition.rs lines 147-199):
build the first part from the path, extend it to the other parts, and
check the two final asserts (the block's length equals the composition's
length and its leftover row equals the query's end row). -/
def CompositionM.rows {R : Type} [Group R] [DecidableEq R]
    (c : CompositionM R) : Option (BlockM R) :=
  match build_first_part c.query (BlockM.with_leftover_row c.query.start_row)
      c.path with
  | some first_part =>
    match extend_parts first_part.len (c.query.num_parts - 1) first_part with
    | some comp =>
      if comp.len = c.length ∧ comp.leftover = c.query.end_row then some comp
      else none
    | none => none
  | none => none

/-- Invariant of the block being built: either it has no rows yet and its
leftover row is the start row, or its first row is the start row. -/
def head_ok {R : Type} (s : R) (b : BlockM R) : Prop :=
  (b.row_list = [] ∧ b.leftover = s) ∨ b.row_list.head? = some s

theorem extend_range_head_ok {R : Type} [Group R] (s : R)
    (b src : BlockM R) (start stop : Nat) (b1 : BlockM R)
    (hinv : head_ok s b) (h : b.extend_range src start stop = some b1) :
    head_ok s b1 := by
  unfold BlockM.extend_range at h
  rcases h0 : src.get_row start with _ | r0
  · rw [h0] at h; exact absurd h (by simp)
  rcases he : src.get_row stop with _ | re
  · rw [h0, he] at h; exact absurd h (by simp)
  rw [h0, he] at h
  dsimp only at h
  by_cases hle : start ≤ stop
  · rw [if_pos hle] at h
    have hb1 := (Option.some.inj h).symm
    rcases Nat.eq_zero_or_pos (stop - start) with hz | hpos
    · have hss : start = stop := by omega
      have hre : re = r0 := by
        rw [hss] at h0
        rw [h0] at he
        exact (Option.some.inj he).symm
      rcases hinv with ⟨hnil, hlo⟩ | hhd
      · left
        constructor
        · rw [hb1]; dsimp only; rw [hnil, hz]; rfl
        · rw [hb1]; dsimp only
          rw [hre, hlo, inv_mul_cancel_right]
      · right
        rw [hb1]; dsimp only
        rw [hz]
        simpa using hhd
    · obtain ⟨k, hk⟩ := Nat.exists_eq_succ_of_ne_zero (Nat.pos_iff_ne_zero.mp hpos)
      rcases hinv with ⟨hnil, hlo⟩ | hhd
      · right
        rw [hb1]; dsimp only
        rw [hnil, hk, List.nil_append, List.range_succ_eq_map, List.map_cons,
          List.head?_cons]
        rw [Nat.add_zero, h0]
        dsimp only [Option.getD]
        rw [hlo, inv_mul_cancel_right]
      · right
        rw [hb1]; dsimp only
        rcases hbr : b.row_list with _ | ⟨a, t⟩
        · rw [hbr] at hhd; exact absurd hhd (by simp)
        · rw [hbr] at hhd
          rw [List.cons_append, List.head?_cons]
          rw [List.head?_cons] at hhd
          exact hhd
  · rw [if_neg hle] at h; exact absurd h (by simp)

theorem rows_elem_step_head_ok {R : Type} [Group R] [DecidableEq R] (s : R)
    (q : QueryM R) (b : BlockM R) (elem : PathElemM R) (b1 : BlockM R)
    (hinv : head_ok s b) (h : rows_elem_step q b elem = some b1) :
    head_ok s b1 := by
  unfold rows_elem_step at h
  by_cases hg : b.leftover = elem.start_row
  case neg => rw [if_neg hg] at h; exact absurd h (by simp)
  rw [if_pos hg] at h
  rcases hm : q.methods[elem.method]? with _ | pc
  · rw [hm] at h; exact absurd h (by simp)
  rw [hm] at h
  dsimp only at h
  have hext : ∀ b2 : BlockM R,
      (if pc.len < elem.start_sub_lead_idx + elem.length then
        (b.extend_range pc elem.start_sub_lead_idx pc.len).bind
          (fun bw => bw.extend_range pc 0
            (elem.start_sub_lead_idx + elem.length - pc.len))
      else
        b.extend_range pc elem.start_sub_lead_idx
          (elem.start_sub_lead_idx + elem.length)) = some b2 →
      head_ok s b2 := by
    intro b2 h2
    by_cases hwrap : pc.len < elem.start_sub_lead_idx + elem.length
    · rw [if_pos hwrap] at h2
      rcases hw : b.extend_range pc elem.start_sub_lead_idx pc.len with _ | bw
      · rw [hw] at h2; exact absurd h2 (by simp)
      rw [hw, Option.some_bind] at h2
      exact extend_range_head_ok s bw pc 0
        (elem.start_sub_lead_idx + elem.length - pc.len) b2
        (extend_range_head_ok s b pc elem.start_sub_lead_idx pc.len bw hinv hw)
        h2
    · rw [if_neg hwrap] at h2
      exact extend_range_head_ok s b pc elem.start_sub_lead_idx
        (elem.start_sub_lead_idx + elem.length) b2 hinv h2
  rcases hx : (if pc.len < elem.start_sub_lead_idx + elem.length then
      (b.extend_range pc elem.start_sub_lead_idx pc.len).bind
        (fun bw => bw.extend_range pc 0
          (elem.start_sub_lead_idx + elem.length - pc.len))
    else
      b.extend_range pc elem.start_sub_lead_idx
        (elem.start_sub_lead_idx + elem.length)) with _ | bx
  · rw [hx] at h; exact absurd h (by simp)
  rw [hx] at h
  dsimp only at h
  have hbx : head_ok s bx := hext bx hx
  rcases hc : elem.call_to_end with _ | call_idx
  · rw [hc] at h
    dsimp only at h
    rw [← Option.some.inj h]
    exact hbx
  rw [hc] at h
  dsimp only at h
  rcases hl : bx.row_list.getLast? with _ | last_row
  · rw [hl] at h; exact absurd h (by simp)
  rcases ht : q.calls[call_idx]? with _ | transposition
  · rw [hl, ht] at h; exact absurd h (by simp)
  rw [hl, ht] at h
  dsimp only at h
  have hne : bx.row_list ≠ [] := by
    intro hn
    rw [hn] at hl
    exact absurd hl (by simp)
  rcases hbx with ⟨hnil, _⟩ | hhd
  · exact absurd hnil hne
  · right
    rw [← Option.some.inj h]
    exact hhd

theorem build_first_part_head_ok {R : Type} [Group R] [DecidableEq R] (s : R)
    (q : QueryM R) :
    ∀ (l : List (PathElemM R)) (b b1 : BlockM R),
      head_ok s b → build_first_part q b l = some b1 → head_ok s b1 := by
  intro l
  induction l with
  | nil =>
    intro b b1 hinv h
    rw [← Option.some.inj h]
    exact hinv
  | cons elem rest ih =>
    intro b b1 hinv h
    unfold build_first_part at h
    rcases hstep : rows_elem_step q b elem with _ | bm
    · rw [hstep] at h; exact absurd h (by simp)
    rw [hstep] at h
    dsimp only at h
    exact ih bm b1 (rows_elem_step_head_ok s q b elem bm hinv hstep) h

theorem extend_parts_head_ok {R : Type} [Group R] (s : R) (part_len : Nat) :
    ∀ (n : Nat) (b b1 : BlockM R),
      head_ok s b → extend_parts part_len n b = some b1 → head_ok s b1 := by
  intro n
  induction n with
  | zero =>
    intro b b1 hinv h
    rw [← Option.some.inj h]
    exact hinv
  | succ k ih =>
    intro b b1 hinv h
    unfold extend_parts at h
    rcases hstep : b.extend_from_within part_len with _ | bm
    · rw [hstep] at h; exact absurd h (by simp)
    rw [hstep] at h
    dsimp only at h
    exact ih bm b1
      (extend_range_head_ok s b b 0 part_len bm hinv hstep) h

theorem rows_elem_step_start {R : Type} [Group R] [DecidableEq R]
    (q : QueryM R) (b : BlockM R) (elem : PathElemM R) (b1 : BlockM R)
    (h : rows_elem_step q b elem = some b1) : b.leftover = elem.start_row := by
  unfold rows_elem_step at h
  by_cases hg : b.leftover = elem.start_row
  · exact hg
  · rw [if_neg hg] at h; exact absurd h (by simp)

theorem build_first_part_take {R : Type} [Group R] [DecidableEq R]
    (q : QueryM R) :
    ∀ (l : List (PathElemM R)) (b b1 : BlockM R),
      build_first_part q b l = some b1 →
      ∀ (i : Nat) (hi : i < l.length),
        ∃ bi, build_first_part q b (l.take i) = some bi ∧
          bi.leftover = (l.get ⟨i, hi⟩).start_row := by
  intro l
  induction l with
  | nil =>
    intro b b1 _ i hi
    exact absurd hi (by simp)
  | cons elem rest ih =>
    intro b b1 h i hi
    unfold build_first_part at h
    rcases hstep : rows_elem_step q b elem with _ | bm
    · rw [hstep] at h; exact absurd h (by simp)
    rw [hstep] at h
    dsimp only at h
    rcases i with _ | j
    · refine ⟨b, rfl, ?_⟩
      exact rows_elem_step_start q b elem bm hstep
    · have hj : j < rest.length := by
        have := hi
        simp only [List.length_cons] at this
        omega
      obtain ⟨bi, hbi, hlo⟩ := ih bm b1 h j hj
      refine ⟨bi, ?_, hlo⟩
      rw [List.take_succ_cons]
      unfold build_first_part
      rw [hstep]
      exact hbi

/-- Claim C5: whenever `Composition::rows` returns a block (i.e. every
assert and `expect` in it passes, as for every composition produced by a
search), the block's length equals the composition's length, its leftover
row equals the query's end row, its first row (when the composition is
non-empty) equals the query's start row, and every path element's start
row equals the leftover row of the block built from the path elements
before it. -/
theorem composition_rows_spec {R : Type} [Group R] [DecidableEq R]
    (c : CompositionM R) (b : BlockM R) (h : c.rows = some b) :
    b.len = c.length ∧
    b.leftover = c.query.end_row ∧
    (0 < c.length → b.row_list.head? = some c.query.start_row) ∧
    (∀ (i : Nat) (hi : i < c.path.length),
      ∃ bi, build_first_part c.query
          (BlockM.with_leftover_row c.query.start_row) (c.path.take i) =
          some bi ∧
        bi.leftover = (c.path.get ⟨i, hi⟩).start_row) := by
  unfold CompositionM.rows at h
  rcases h1 : build_first_part c.query
      (BlockM.with_leftover_row c.query.start_row) c.path with _ | fp
  · rw [h1] at h; exact absurd h (by simp)
  rw [h1] at h
  dsimp only at h
  rcases h2 : extend_parts fp.len (c.query.num_parts - 1) fp with _ | comp
  · rw [h2] at h; exact absurd h (by simp)
  rw [h2] at h
  dsimp only at h
  by_cases hg : comp.len = c.length ∧ comp.leftover = c.query.end_row
  case neg => rw [if_neg hg] at h; exact absurd h (by simp)
  rw [if_pos hg] at h
  have hcb : comp = b := Option.some.inj h
  have hinv0 : head_ok c.query.start_row
      (BlockM.with_leftover_row c.query.start_row) := Or.inl ⟨rfl, rfl⟩
  have hinv : head_ok c.query.start_row b := by
    rw [← hcb]
    exact extend_parts_head_ok c.query.start_row fp.len
      (c.query.num_parts - 1) fp comp
      (build_first_part_head_ok c.query.start_row c.query c.path
        (BlockM.with_leftover_row c.query.start_row) fp hinv0 h1) h2
  refine ⟨hcb ▸ hg.1, hcb ▸ hg.2, ?_, ?_⟩
  · intro hpos
    rcases hinv with ⟨hnil, _⟩ | hhd
    · have hlen : b.len = c.length := hcb ▸ hg.1
      rw [BlockM.len, hnil] at hlen
      simp only [List.length_nil] at hlen
      omega
    · exact hhd
  · exact build_first_part_take c.query c.path
      (BlockM.with_leftover_row c.query.start_row) fp h1

/-- Witness for `composition_rows_spec`: a one-part composition over the
trivial group with a single two-row path element yields a block with two
rows, first row the start row and leftover the end row. -/
theorem composition_rows_spec_witness :
    ∃ b : BlockM Unit, b.len = 2 ∧ b.leftover = () ∧
      b.row_list.head? = some () := by
  have hsome : ((⟨⟨[⟨[(), ()], ()⟩], [], (), (), 1⟩,
      [⟨(), 0, 0, 2, none⟩], 2⟩ : CompositionM Unit).rows).isSome = true := by
    decide
  obtain ⟨b, hb⟩ := Option.isSome_iff_exists.mp hsome
  have h := composition_rows_spec
    (⟨⟨[⟨[(), ()], ()⟩], [], (), (), 1⟩, [⟨(), 0, 0, 2, none⟩], 2⟩ :
      CompositionM Unit) b hb
  exact ⟨b, h.1, h.2.1, h.2.2.1 (by decide)⟩
